import Mathlib

/-!
Verification of the workflow-definition parser and configuration aggregator
of `azure_config_collector.py` (classes `WorkflowParser` and
`ConfigurationAggregator`).

The Python code operates on already-parsed JSON-like data (nested dicts,
lists, strings, numbers, booleans, `None`).  We embed such data as the
mutually inductive type `JValue` below (`JArr` / `JObj` are the list and
dict spines, kept as separate inductives so that all recursions are
structural and reduce in the kernel).  Python dicts are modelled as
association lists in insertion order.  The iteration order of the Python
`set` used by `_order_actions` (its `remaining` set of strings) is NOT
determined by the program: CPython enumerates a string set in hash-table
order, and string hashing is randomized per process.  The order-generic
embeddings `order_actions_enum` / `parse_workflow_enum` therefore take the
set's enumeration as an explicit parameter (some permutation of the action
keys); `order_actions` / `parse_workflow` are their instantiation at the
insertion-order enumeration — one possible enumeration — and are used only
for conclusions that hold under every enumeration.

Python code that can raise (`.get` on a non-dict, `.lower()` on a
non-string, slicing a number, hashing a dict, ...) is embedded in the
`Except String` monad; the error string names the Python exception that the
corresponding operation raises.  Pure total Python helpers are embedded as
plain functions.  Python `str(x)` used by f-strings is embedded as `pyStr`
(for strings inside containers Python's `repr` quoting is reproduced for
strings without special characters, which is the only case exercised here).
-/

mutual

inductive JValue where
  | null
  | bool (b : Bool)
  | num (n : Int)
  | str (s : String)
  | arr (xs : JArr)
  | obj (fields : JObj)

inductive JArr where
  | nil
  | cons (hd : JValue) (tl : JArr)

inductive JObj where
  | onil
  | ocons (k : String) (v : JValue) (tl : JObj)

end

mutual

def jvEq : JValue → JValue → Bool
  | .null, .null => true
  | .bool a, .bool b => a == b
  | .num a, .num b => a == b
  | .str a, .str b => a == b
  | .arr a, .arr b => jaEq a b
  | .obj a, .obj b => joEq a b
  | _, _ => false

def jaEq : JArr → JArr → Bool
  | .nil, .nil => true
  | .cons a atl, .cons b btl => jvEq a b && jaEq atl btl
  | _, _ => false

def joEq : JObj → JObj → Bool
  | .onil, .onil => true
  | .ocons ka va atl, .ocons kb vb btl => ka == kb && jvEq va vb && joEq atl btl
  | _, _ => false

end

mutual

theorem jvEq_iff : ∀ a b, jvEq a b = true ↔ a = b
  | .null, .null => by simp [jvEq]
  | .bool _, .bool _ => by simp [jvEq]
  | .num _, .num _ => by simp [jvEq]
  | .str _, .str _ => by simp [jvEq]
  | .arr x, .arr y => by simp [jvEq, jaEq_iff x y]
  | .obj x, .obj y => by simp [jvEq, joEq_iff x y]
  | .null, .bool _ => by simp [jvEq]
  | .null, .num _ => by simp [jvEq]
  | .null, .str _ => by simp [jvEq]
  | .null, .arr _ => by simp [jvEq]
  | .null, .obj _ => by simp [jvEq]
  | .bool _, .null => by simp [jvEq]
  | .bool _, .num _ => by simp [jvEq]
  | .bool _, .str _ => by simp [jvEq]
  | .bool _, .arr _ => by simp [jvEq]
  | .bool _, .obj _ => by simp [jvEq]
  | .num _, .null => by simp [jvEq]
  | .num _, .bool _ => by simp [jvEq]
  | .num _, .str _ => by simp [jvEq]
  | .num _, .arr _ => by simp [jvEq]
  | .num _, .obj _ => by simp [jvEq]
  | .str _, .null => by simp [jvEq]
  | .str _, .bool _ => by simp [jvEq]
  | .str _, .num _ => by simp [jvEq]
  | .str _, .arr _ => by simp [jvEq]
  | .str _, .obj _ => by simp [jvEq]
  | .arr _, .null => by simp [jvEq]
  | .arr _, .bool _ => by simp [jvEq]
  | .arr _, .num _ => by simp [jvEq]
  | .arr _, .str _ => by simp [jvEq]
  | .arr _, .obj _ => by simp [jvEq]
  | .obj _, .null => by simp [jvEq]
  | .obj _, .bool _ => by simp [jvEq]
  | .obj _, .num _ => by simp [jvEq]
  | .obj _, .str _ => by simp [jvEq]
  | .obj _, .arr _ => by simp [jvEq]

theorem jaEq_iff : ∀ a b, jaEq a b = true ↔ a = b
  | .nil, .nil => by simp [jaEq]
  | .nil, .cons _ _ => by simp [jaEq]
  | .cons _ _, .nil => by simp [jaEq]
  | .cons a atl, .cons b btl => by
      simp [jaEq, jvEq_iff a b, jaEq_iff atl btl]

theorem joEq_iff : ∀ a b, joEq a b = true ↔ a = b
  | .onil, .onil => by simp [joEq]
  | .onil, .ocons _ _ _ => by simp [joEq]
  | .ocons _ _ _, .onil => by simp [joEq]
  | .ocons ka va atl, .ocons kb vb btl => by
      simp [joEq, jvEq_iff va vb, joEq_iff atl btl, and_assoc]

end

instance : DecidableEq JValue := fun a b => decidable_of_iff _ (jvEq_iff a b)

instance : DecidableEq JArr := fun a b => decidable_of_iff _ (jaEq_iff a b)

instance : DecidableEq JObj := fun a b => decidable_of_iff _ (joEq_iff a b)

/-- Association-list view of a Python dict (`.items()` order). -/
def JObj.toList : JObj → List (String × JValue)
  | .onil => []
  | .ocons k v tl => (k, v) :: tl.toList

/-- First-match lookup in a dict, i.e. Python `d[k]` / `d.get(k)` hit. -/
def joLookup : JObj → String → Option JValue
  | .onil, _ => none
  | .ocons k v tl, key => if k = key then some v else joLookup tl key

/-- Python truthiness of a JSON-like value. -/
def pyTruthy : JValue → Bool
  | .null => false
  | .bool b => b
  | .num n => n != 0
  | .str s => s != ""
  | .arr .nil => false
  | .arr (.cons _ _) => true
  | .obj .onil => false
  | .obj (.ocons _ _ _) => true

/-- Python `v.get(key, dflt)`: succeeds only on a dict, otherwise the
attribute lookup raises `AttributeError`. -/
def pyDictGet (v : JValue) (key : String) (dflt : JValue) : Except String JValue :=
  match v with
  | .obj fs => .ok ((joLookup fs key).getD dflt)
  | _ => .error "AttributeError: get"

/-- Python `v.items()` (also used for `v.keys()` on the same failure path):
raises `AttributeError` on a non-dict. -/
def pyItems (v : JValue) : Except String (List (String × JValue)) :=
  match v with
  | .obj fs => .ok fs.toList
  | _ => .error "AttributeError: items"

/-- Python `v.keys()` as a list of strings. -/
def pyDictKeys (v : JValue) : Except String (List String) :=
  match v with
  | .obj fs => .ok (fs.toList.map Prod.fst)
  | _ => .error "AttributeError: keys"

/-- Python `s.lower()` on a string (character-wise, as all the strings the
source compares are ASCII). -/
def strLower (s : String) : String := String.mk (s.data.map Char.toLower)

/-- Python `v.lower()`: only strings have `.lower`. -/
def pyLower (v : JValue) : Except String String :=
  match v with
  | .str s => .ok (strLower s)
  | _ => .error "AttributeError: lower"

def jarrTake : Nat → JArr → JArr
  | 0, _ => .nil
  | _, .nil => .nil
  | n + 1, .cons hd tl => .cons hd (jarrTake n tl)

/-- Python `v[:50]`: slicing is defined on strings and lists and raises
`TypeError` otherwise. -/
def pySlice50 (v : JValue) : Except String JValue :=
  match v with
  | .str s => .ok (.str (s.take 50))
  | .arr xs => .ok (.arr (jarrTake 50 xs))
  | _ => .error "TypeError: slice"

/-- Prefix test on character lists (auxiliary for the substring test). -/
def isPrefixL : List Char → List Char → Bool
  | [], _ => true
  | _ :: _, [] => false
  | a :: as, b :: bs => a == b && isPrefixL as bs

/-- Substring occurrence on character lists (auxiliary for `containsSub`). -/
def isSubL (needle : List Char) : List Char → Bool
  | [] => needle.isEmpty
  | c :: tl => isPrefixL needle (c :: tl) || isSubL needle tl

/-- Python substring test `sub in s`. -/
def containsSub (s sub : String) : Bool := isSubL sub.data s.data

instance {α β : Type} [DecidableEq α] [DecidableEq β] : DecidableEq (Except α β) :=
  fun a b =>
    match a, b with
    | .ok x, .ok y => decidable_of_iff (x = y) (by simp)
    | .error x, .error y => decidable_of_iff (x = y) (by simp)
    | .ok _, .error _ => isFalse (by simp)
    | .error _, .ok _ => isFalse (by simp)

mutual

/-- Python `repr` for JSON-like data (string quoting reproduced for strings
without special characters, the only case reached here). -/
def pyRepr : JValue → String
  | .null => "None"
  | .bool true => "True"
  | .bool false => "False"
  | .num n => toString n
  | .str s => "'" ++ s ++ "'"
  | .arr xs => "[" ++ String.intercalate ", " (pyReprArrItems xs) ++ "]"
  | .obj fs => "\x7b" ++ String.intercalate ", " (pyReprObjItems fs) ++ "\x7d"

def pyReprArrItems : JArr → List String
  | .nil => []
  | .cons hd tl => pyRepr hd :: pyReprArrItems tl

def pyReprObjItems : JObj → List String
  | .onil => []
  | .ocons k v tl => ("'" ++ k ++ "': " ++ pyRepr v) :: pyReprObjItems tl

end

/-- Python `str(v)` as used by the f-strings in the source. -/
def pyStr : JValue → String
  | .null => "None"
  | .bool true => "True"
  | .bool false => "False"
  | .num n => toString n
  | .str s => s
  | .arr xs => pyRepr (.arr xs)
  | .obj fs => pyRepr (.obj fs)

/-- Python `s.split(sep)` for a one-character separator, on char lists. -/
def splitChar (sep : Char) : List Char → List (List Char)
  | [] => [[]]
  | c :: tl =>
    match splitChar sep tl with
    | h :: t => if c = sep then [] :: h :: t else (c :: h) :: t
    | [] => [[]]

/-- Python `s.split("/")`. -/
def pySplitSlash (s : String) : List String := (splitChar '/' s.data).map String.mk

/-- Python `path.split("/")[-1]` (split never returns an empty list). -/
def lastSegment (s : String) : String := (pySplitSlash s).getLastD ""

namespace WorkflowParser

/-- `_sanitize_inputs`'s `sensitive_keys` list. -/
def sensitive_keys : List String :=
  ["authentication", "password", "secret", "key", "token", "sig"]

/-- `any(s in k.lower() for s in sensitive_keys)`. -/
def isSensitive (k : String) : Bool :=
  sensitive_keys.any (fun s => containsSub (strLower k) s)

mutual

/-- `WorkflowParser._sanitize_inputs`: non-dict input yields an empty dict;
entries with a sensitive key are replaced by the redaction marker, dict
values under non-sensitive keys are sanitized recursively, all other values
are copied unchanged. -/
def sanitize_inputs : JValue → JValue
  | .obj fields => .obj (sanitizeObj fields)
  | _ => .obj .onil

/-- The `for k, v in inputs.items():` loop of `_sanitize_inputs`. -/
def sanitizeObj : JObj → JObj
  | .onil => .onil
  | .ocons k v tl =>
    if isSensitive k then .ocons k (.str "[REDACTED]") (sanitizeObj tl)
    else
      match v with
      | .obj fs => .ocons k (.obj (sanitizeObj fs)) (sanitizeObj tl)
      | w => .ocons k w (sanitizeObj tl)

end

/-- `WorkflowParser._describe_trigger`. -/
def describe_trigger (trigger : JValue) : Except String String :=
  match pyDictGet trigger "type" (.str "Unknown") with
  | .error e => .error e
  | .ok t_type =>
    if t_type = .str "Request" then
      match pyDictGet trigger "inputs" (.obj .onil) with
      | .error e => .error e
      | .ok ins =>
        match pyDictGet ins "method" (.str "POST") with
        | .error e => .error e
        | .ok m => .ok ("HTTP " ++ pyStr m ++ " Request - Receives incoming API calls")
    else if t_type = .str "Recurrence" then
      match pyDictGet trigger "recurrence" (.obj .onil) with
      | .error e => .error e
      | .ok r =>
        match pyDictGet r "frequency" (.str "Day") with
        | .error e => .error e
        | .ok freq =>
          match pyDictGet r "interval" (.num 1) with
          | .error e => .error e
          | .ok interval =>
            match pyLower freq with
            | .error e => .error e
            | .ok fl => .ok ("Scheduled - Runs every " ++ pyStr interval ++ " " ++ fl ++ "(s)")
    else if t_type = .str "ApiConnection" then
      .ok "API Connection - Triggered by external service event"
    else
      .ok (pyStr t_type ++ " trigger")

/-- `WorkflowParser._describe_api_connection`. -/
def describe_api_connection (inputs : JValue) : Except String String :=
  match pyDictGet inputs "host" (.obj .onil) with
  | .error e => .error e
  | .ok host =>
  match pyDictGet host "apiId" (.str "") with
  | .error e => .error e
  | .ok api_id =>
  match pyDictGet inputs "path" (.str "") with
  | .error e => .error e
  | .ok path =>
  match pyDictGet inputs "method" (.str "") with
  | .error e => .error e
  | .ok method =>
  match pyLower api_id with
  | .error e => .error e
  | .ok apiL =>
  if containsSub apiL "sql" then
    match path with
    | .str ps =>
      if containsSub (strLower ps) "executestoredprocedure" then
        .ok ("Execute SQL stored procedure: " ++
          (if containsSub ps "/" then lastSegment ps else "stored procedure"))
      else if containsSub (strLower ps) "executequery" then .ok "Execute SQL query"
      else .ok "SQL Server operation"
    | _ => .error "AttributeError: lower"
  else if containsSub apiL "office365" then .ok "Office 365 operation"
  else if containsSub apiL "keyvault" then .ok "Key Vault secret operation"
  else
    if pyTruthy path then
      match pySlice50 path with
      | .error e => .error e
      | .ok p => .ok ("API Connection: " ++ pyStr method ++ " " ++ pyStr p)
    else .ok ("API Connection: " ++ pyStr method ++ " operation")

/-- `WorkflowParser._describe_action`.  A dict or list `type` value is
unhashable, so the Python membership test `a_type in descriptions` raises
`TypeError` on it. -/
def describe_action (action : JValue) : Except String String :=
  match pyDictGet action "type" (.str "Unknown") with
  | .error e => .error e
  | .ok a_type =>
  match pyDictGet action "inputs" (.obj .onil) with
  | .error e => .error e
  | .ok inputs =>
  match a_type with
  | .obj _ => .error "TypeError: unhashable"
  | .arr _ => .error "TypeError: unhashable"
  | _ =>
    if a_type = .str "Response" then
      match pyDictGet inputs "statusCode" (.num 200) with
      | .error e => .error e
      | .ok sc => .ok ("Return HTTP " ++ pyStr sc ++ " response")
    else if a_type = .str "Compose" then .ok "Transform/compose data"
    else if a_type = .str "ParseJson" then .ok "Parse JSON content"
    else if a_type = .str "Condition" then .ok "Conditional branch (If/Then/Else)"
    else if a_type = .str "ForEach" then .ok "Loop through collection"
    else if a_type = .str "Switch" then .ok "Switch/case evaluation"
    else if a_type = .str "Scope" then .ok "Grouped actions scope"
    else if a_type = .str "InitializeVariable" then .ok "Initialize variable"
    else if a_type = .str "SetVariable" then .ok "Set variable value"
    else if a_type = .str "AppendToArrayVariable" then .ok "Append to array"
    else if a_type = .str "Http" then
      match pyDictGet inputs "method" (.str "GET") with
      | .error e => .error e
      | .ok m =>
        match pyDictGet inputs "uri" (.str "external service") with
        | .error e => .error e
        | .ok uri =>
          match pySlice50 uri with
          | .error e => .error e
          | .ok u => .ok ("HTTP " ++ pyStr m ++ " call to " ++ pyStr u)
    else if a_type = .str "ApiConnection" then describe_api_connection inputs
    else .ok (pyStr a_type ++ " action")

/-- `WorkflowParser._extract_connection`: guarded by `isinstance` checks, so
only the initial `action.get` can raise. -/
def extract_connection (action : JValue) : Except String (Option JValue) :=
  match pyDictGet action "inputs" (.obj .onil) with
  | .error e => .error e
  | .ok inputs =>
    match inputs with
    | .obj ifs =>
      match (joLookup ifs "host").getD (.obj .onil) with
      | .obj hfs =>
        match (joLookup hfs "connection").getD (.obj .onil) with
        | .obj cfs => .ok (joLookup cfs "referenceName")
        | _ => .ok none
      | _ => .ok none
    | _ => .ok none

/-- `WorkflowParser._identify_data_source`.  The `isinstance` guards cover
`inputs` and `host` but not `apiId`, whose `.lower()` can still raise; in
the SQL branch `path.split` can raise on a truthy non-string path. -/
def identify_data_source (action : JValue) :
    Except String (Option (String × JValue × Option String)) :=
  match pyDictGet action "inputs" (.obj .onil) with
  | .error e => .error e
  | .ok inputs =>
    let host : JValue :=
      match inputs with
      | .obj ifs => (joLookup ifs "host").getD (.obj .onil)
      | _ => .obj .onil
    let api_id : JValue :=
      match host with
      | .obj hfs => (joLookup hfs "apiId").getD (.str "")
      | _ => .str ""
    match pyLower api_id with
    | .error e => .error e
    | .ok apiL =>
    match pyDictGet action "type" .null with
    | .error e => .error e
    | .ok typ =>
      if containsSub apiL "sql" then
        let pathTruthy : Bool :=
          match inputs with
          | .obj ifs => pyTruthy ((joLookup ifs "path").getD .null)
          | _ => false
        if pathTruthy then
          match inputs with
          | .obj ifs =>
            match (joLookup ifs "path").getD (.str "") with
            | .str ps => .ok (some ("SQL Server", typ, some (lastSegment ps)))
            | _ => .error "AttributeError: split"
          | _ => .error "AttributeError: split"
        else .ok (some ("SQL Server", typ, some "query"))
      else if containsSub apiL "sharepointonline" then
        .ok (some ("SharePoint Online", typ, none))
      else if containsSub apiL "azureblob" then
        .ok (some ("Azure Blob Storage", typ, none))
      else .ok none

/-- `deps = actions[name].get("runAfter", {}).keys()` inside
`_order_actions`'s scan. -/
def getDeps (acts : List (String × JValue)) (n : String) : Except String (List String) :=
  match acts.lookup n with
  | none => .error "KeyError"
  | some a =>
    match pyDictGet a "runAfter" (.obj .onil) with
    | .error e => .error e
    | .ok ra => pyDictKeys ra

/-- One `for name in list(remaining): ...` scan of `_order_actions`: returns
the first remaining action whose dependencies are all already ordered, or
`none` when the scan falls through to the `else:` clause. -/
def scanOnce (acts : List (String × JValue)) (ordered : List String) :
    List String → Except String (Option String)
  | [] => .ok none
  | n :: rest =>
    match getDeps acts n with
    | .error e => .error e
    | .ok deps =>
      if deps.all (fun d => ordered.contains d) then .ok (some n)
      else scanOnce acts ordered rest

/-- The `while remaining and iteration < max_iterations:` loop of
`_order_actions`; `fuel` is the number of scan rounds still allowed by the
2×N iteration cap, and `remaining` carries the `remaining` set in its
current iteration order.  When the cap runs out the loop exits and returns
`ordered` as is; when a scan emits nothing the remainder is appended in
that set order. -/
def orderLoop (acts : List (String × JValue)) :
    Nat → List String → List String → Except String (List String)
  | 0, ordered, _ => .ok ordered
  | fuel + 1, ordered, remaining =>
    if remaining.isEmpty then .ok ordered
    else
      match scanOnce acts ordered remaining with
      | .error e => .error e
      | .ok (some n) => orderLoop acts fuel (ordered ++ [n]) (remaining.erase n)
      | .ok none => .ok (ordered ++ remaining)

/-- `WorkflowParser._order_actions` with the iteration order of its
`remaining = set(actions.keys())` made explicit: `enum` is the order in
which CPython's hash table happens to enumerate the set — some permutation
of the distinct keys, not determined by the program (string hashing is
randomized per process). -/
def order_actions_enum (actions : JValue) (enum : List String) :
    Except String (List String) :=
  match pyItems actions with
  | .error e => .error e
  | .ok acts => orderLoop acts (acts.length * 2) [] enum

/-- `WorkflowParser._order_actions` instantiated at the insertion-order
enumeration of the `remaining` set — one possible enumeration; see
`order_actions_enum` for the order-generic embedding, and
`order_actions_eq_enum` for the correspondence. -/
def order_actions (actions : JValue) : Except String (List String) :=
  match pyItems actions with
  | .error e => .error e
  | .ok acts => orderLoop acts (acts.length * 2) [] (acts.map Prod.fst)

structure TriggerInfo where
  name : String
  type : JValue
  kind : JValue
  description : String
deriving DecidableEq

structure ActionInfo where
  name : String
  type : JValue
  description : String
  run_after : List String
  inputs : JValue
deriving DecidableEq

structure DataSourceInfo where
  type : String
  action : JValue
  operation : Option String
deriving DecidableEq

structure ParsedWorkflow where
  triggers : List TriggerInfo
  actions : List ActionInfo
  connections : List JValue
  data_sources : List DataSourceInfo
  parameters : List JValue
  vars : List JValue  -- the Python record key is "variables" (a reserved word in Lean)
deriving DecidableEq

def emptyParsed : ParsedWorkflow := ⟨[], [], [], [], [], []⟩

/-- The trigger loop of `parse_workflow`. -/
def processTriggers : List (String × JValue) → Except String (List TriggerInfo)
  | [] => .ok []
  | (n, t) :: rest =>
    match pyDictGet t "type" .null with
    | .error e => .error e
    | .ok ty =>
    match pyDictGet t "kind" .null with
    | .error e => .error e
    | .ok kd =>
    match describe_trigger t with
    | .error e => .error e
    | .ok d =>
      match processTriggers rest with
      | .error e => .error e
      | .ok rs => .ok (⟨n, ty, kd, d⟩ :: rs)

/-- The `for action_name in ordered_actions:` loop of `parse_workflow`,
accumulating actions, distinct truthy connection references, and data
sources. -/
def processActions (acts : List (String × JValue)) :
    List String → List ActionInfo → List JValue → List DataSourceInfo →
    Except String (List ActionInfo × List JValue × List DataSourceInfo)
  | [], accA, accC, accD => .ok (accA, accC, accD)
  | n :: rest, accA, accC, accD =>
    let action := ((acts.lookup n).getD (.obj .onil))
    match pyDictGet action "type" .null with
    | .error e => .error e
    | .ok typ =>
    match describe_action action with
    | .error e => .error e
    | .ok desc =>
    match pyDictGet action "runAfter" (.obj .onil) with
    | .error e => .error e
    | .ok raV =>
    match pyDictKeys raV with
    | .error e => .error e
    | .ok ra =>
    match pyDictGet action "inputs" (.obj .onil) with
    | .error e => .error e
    | .ok ins =>
    match extract_connection action with
    | .error e => .error e
    | .ok conn =>
    match identify_data_source action with
    | .error e => .error e
    | .ok ds =>
      let accA' := accA ++ [⟨n, typ, desc, ra, sanitize_inputs ins⟩]
      let accC' :=
        match conn with
        | some c => if pyTruthy c = true ∧ c ∉ accC then accC ++ [c] else accC
        | none => accC
      let accD' :=
        match ds with
        | some (dt, da, dop) => accD ++ [⟨dt, da, dop⟩]
        | none => accD
      processActions acts rest accA' accC' accD'

/-- `WorkflowParser.parse_workflow` instantiated at the insertion-order
enumeration of `_order_actions`'s `remaining` set (see
`parse_workflow_enum` for the order-generic embedding). -/
def parse_workflow (definition : JValue) : Except String ParsedWorkflow :=
  if pyTruthy definition = false then .ok emptyParsed
  else
    match pyDictGet definition "triggers" (.obj .onil) with
    | .error e => .error e
    | .ok trigsV =>
    match pyItems trigsV with
    | .error e => .error e
    | .ok trigs =>
    match processTriggers trigs with
    | .error e => .error e
    | .ok triggers =>
    match pyDictGet definition "actions" (.obj .onil) with
    | .error e => .error e
    | .ok actsV =>
    match order_actions actsV with
    | .error e => .error e
    | .ok ordered =>
    match pyItems actsV with
    | .error e => .error e
    | .ok acts =>
    match processActions acts ordered [] [] [] with
    | .error e => .error e
    | .ok (aIs, conns, dss) => .ok ⟨triggers, aIs, conns, dss, [], []⟩

/-- `WorkflowParser.parse_workflow` with the iteration order of
`_order_actions`'s `remaining` set made explicit: the body is that of
`parse_workflow` with its one set-iterating call generalised to
`order_actions_enum` (see there). -/
def parse_workflow_enum (definition : JValue) (enum : List String) :
    Except String ParsedWorkflow :=
  if pyTruthy definition = false then .ok emptyParsed
  else
    match pyDictGet definition "triggers" (.obj .onil) with
    | .error e => .error e
    | .ok trigsV =>
    match pyItems trigsV with
    | .error e => .error e
    | .ok trigs =>
    match processTriggers trigs with
    | .error e => .error e
    | .ok triggers =>
    match pyDictGet definition "actions" (.obj .onil) with
    | .error e => .error e
    | .ok actsV =>
    match order_actions_enum actsV enum with
    | .error e => .error e
    | .ok ordered =>
    match pyItems actsV with
    | .error e => .error e
    | .ok acts =>
    match processActions acts ordered [] [] [] with
    | .error e => .error e
    | .ok (aIs, conns, dss) => .ok ⟨triggers, aIs, conns, dss, [], []⟩

/-- The action-name sequence of a parse result (`[]` on an error);
statement helper. -/
def parsedNames (r : Except String ParsedWorkflow) : List String :=
  match r with
  | .ok pw => pw.actions.map ActionInfo.name
  | .error _ => []

/-- `true` iff the computation returned normally; statement helper. -/
def isOkE {ε α : Type} : Except ε α → Bool
  | .ok _ => true
  | .error _ => false

/-- `WorkflowParser.generate_markdown` (pure string production saves a
line list and joins it with newlines). -/
def generate_markdown (parsed : ParsedWorkflow) (workflow_name : String) : String :=
  let l := ["## " ++ workflow_name ++ "\n"]
  let l := l ++ ["### Trigger Configuration"]
  let l := l ++ parsed.triggers.map (fun t =>
    "- **" ++ t.name ++ "** (" ++ pyStr t.type ++ "): " ++ t.description)
  let l := l ++ [""]
  let l := l ++ ["### Workflow Actions (Execution Order)", "",
    "| Step | Action | Type | Description | Depends On |",
    "|------|--------|------|-------------|------------|"]
  let l := l ++ parsed.actions.enum.map (fun p =>
    let deps := String.intercalate ", " p.2.run_after
    let deps := if deps = "" then "-" else deps
    "| " ++ toString (p.1 + 1) ++ " | " ++ p.2.name ++ " | " ++ pyStr p.2.type ++
      " | " ++ p.2.description ++ " | " ++ deps ++ " |")
  let l := l ++ [""]
  let l := l ++
    (if parsed.connections.isEmpty then []
     else ["### API Connections"] ++ parsed.connections.map (fun c => "- " ++ pyStr c) ++ [""])
  let l := l ++
    (if parsed.data_sources.isEmpty then []
     else ["### Data Sources"] ++
       parsed.data_sources.map (fun ds =>
         "- **" ++ ds.type ++ "**: " ++ ds.operation.getD "N/A") ++ [""])
  String.intercalate "\n" l

/-- The list of dependency names `_order_actions` reads for action `n`
(`actions[name].get("runAfter", {}).keys()`), or `[]` where that read would
raise.  Used to state graph hypotheses decidably. -/
def depsOrEmpty (acts : List (String × JValue)) (n : String) : List String :=
  match getDeps acts n with
  | .ok ds => ds
  | .error _ => []

/-- The connection reference contributed by action `n` to the `connections`
accumulation of `parse_workflow`: the extracted reference if extraction
succeeds, is truthy, and hence survives the `if conn` guard. -/
def connExtract (acts : List (String × JValue)) (n : String) : Option JValue :=
  match extract_connection ((acts.lookup n).getD (.obj .onil)) with
  | .ok (some c) => if pyTruthy c then some c else none
  | _ => none

/-- The stream of truthy connection references encountered along an action
order, before duplicate suppression. -/
def connStream (acts : List (String × JValue)) (ns : List String) : List JValue :=
  ns.filterMap (connExtract acts)

/-- The duplicate-suppressing accumulation
`if conn and conn not in result["connections"]: append` of `parse_workflow`,
as a fold over a stream of already-truthy references. -/
def dedupIns (acc : List JValue) : List JValue → List JValue
  | [] => acc
  | c :: rest => dedupIns (if c ∈ acc then acc else acc ++ [c]) rest

/-- Lookup of a (possibly nested) value in a JSON object along a path of
dict keys.  Used to state the redaction claim. -/
def getPath : JValue → List String → Option JValue
  | v, [] => some v
  | .obj fs, k :: ks =>
    match joLookup fs k with
    | some w => getPath w ks
    | none => none
  | _, _ :: _ => none

/-- The states `(ordered, remaining)` that the `while` loop of
`_order_actions` can reach when the initial `remaining` set enumerates as
`enum`, following the loop's own deterministic scan-and-emit steps. -/
inductive LoopReach (acts : List (String × JValue)) (enum : List String) :
    List String → List String → Prop where
  | init : LoopReach acts enum [] enum
  | step {ordered remaining : List String} {n : String} :
      LoopReach acts enum ordered remaining →
      scanOnce acts ordered remaining = .ok (some n) →
      LoopReach acts enum (ordered ++ [n]) (remaining.erase n)

end WorkflowParser

namespace ConfigurationAggregator

/-- The dict returned by `ConfigurationAggregator._identify_backend`:
a `type` entry and, in the `azurewebsites.net` branch only, a `name`
entry. -/
structure BackendInfo where
  type : String
  name : Option String
deriving DecidableEq

/-- A match of the regex `https://([^.]+)\.azurewebsites\.net` at the start
of `cs`, returning capture group 1.  Since `[^.]+` cannot match a dot, the
only candidate run is the maximal dot-free run after `https://`, which must
then be followed by the literal `.azurewebsites.net`. -/
def matchAt (cs : List Char) : Option String :=
  if isPrefixL "https://".data cs then
    if (List.takeWhile (fun ch => ch != '.') (cs.drop 8)).isEmpty then none
    else if isPrefixL ".azurewebsites.net".data
        ((cs.drop 8).drop (List.takeWhile (fun ch => ch != '.') (cs.drop 8)).length) then
      some (String.mk (List.takeWhile (fun ch => ch != '.') (cs.drop 8)))
    else none
  else none

/-- `re.search` of the same regex: the match at the leftmost position where
one exists. -/
def searchAzure : List Char → Option String
  | [] => none
  | c :: tl =>
    match matchAt (c :: tl) with
    | some cap => some cap
    | none => searchAzure tl

/-- `ConfigurationAggregator._identify_backend` (invoked by
`add_api_config` on a non-empty `serviceUrl`). -/
def identify_backend (url : String) : BackendInfo :=
  if containsSub url "azurewebsites.net" then
    ⟨"Logic App Standard",
      some (match searchAzure url.data with | some c => c | none => "Unknown")⟩
  else if containsSub url "logic.azure.com" then ⟨"Logic App Consumption", none⟩
  else if containsSub url "azure-api.net" then ⟨"APIM Backend", none⟩
  else ⟨"External", none⟩

end ConfigurationAggregator

/-! ## Verification

Supporting lemmas, then one theorem per claim (`claim_C1` .. `claim_C10`),
each with a witness instantiation at a concrete input where the theorem has
hypotheses. -/

namespace WorkflowParser

theorem sanitize_inputs_obj (fs : JObj) :
    sanitize_inputs (.obj fs) = .obj (sanitizeObj fs) := by
  rw [sanitize_inputs.eq_def]

theorem sanitize_inputs_of_ne_obj (v : JValue) (h : ∀ fs, v ≠ .obj fs) :
    sanitize_inputs v = .obj .onil := by
  cases v with
  | obj fs => exact absurd rfl (h fs)
  | null => rw [sanitize_inputs.eq_def]
  | bool b => rw [sanitize_inputs.eq_def]
  | num n => rw [sanitize_inputs.eq_def]
  | str s => rw [sanitize_inputs.eq_def]
  | arr xs => rw [sanitize_inputs.eq_def]

theorem sanitizeObj_onil : sanitizeObj .onil = .onil := by
  rw [sanitizeObj.eq_def]

theorem sanitizeObj_ocons_sensitive (k : String) (v : JValue) (tl : JObj)
    (h : isSensitive k = true) :
    sanitizeObj (.ocons k v tl) = .ocons k (.str "[REDACTED]") (sanitizeObj tl) := by
  rw [sanitizeObj.eq_def]; simp [h]

theorem sanitizeObj_ocons_obj (k : String) (fs : JObj) (tl : JObj)
    (h : isSensitive k = false) :
    sanitizeObj (.ocons k (.obj fs) tl) = .ocons k (.obj (sanitizeObj fs)) (sanitizeObj tl) := by
  rw [sanitizeObj.eq_def]; simp [h]

theorem sanitizeObj_ocons_other (k : String) (v : JValue) (tl : JObj)
    (h : isSensitive k = false) (hv : ∀ fs, v ≠ .obj fs) :
    sanitizeObj (.ocons k v tl) = .ocons k v (sanitizeObj tl) := by
  cases v with
  | obj fs => exact absurd rfl (hv fs)
  | null => rw [sanitizeObj.eq_def]; simp [h]
  | bool b => rw [sanitizeObj.eq_def]; simp [h]
  | num n => rw [sanitizeObj.eq_def]; simp [h]
  | str s => rw [sanitizeObj.eq_def]; simp [h]
  | arr xs => rw [sanitizeObj.eq_def]; simp [h]

end WorkflowParser

namespace WorkflowParser

theorem scanOnce_mem {acts : List (String × JValue)} {ordered : List String} :
    ∀ {rem : List String} {n : String}, scanOnce acts ordered rem = .ok (some n) → n ∈ rem := by
  intro rem
  induction rem with
  | nil => intro n h; simp [scanOnce] at h
  | cons m tl ih =>
    intro n h
    simp only [scanOnce] at h
    split at h
    · exact absurd h (by simp)
    · split at h
      · simp only [Except.ok.injEq, Option.some.injEq] at h
        exact h ▸ List.mem_cons_self m tl
      · exact List.mem_cons_of_mem m (ih h)

theorem scanOnce_some {acts : List (String × JValue)} {ordered : List String} :
    ∀ {rem : List String} {n : String}, scanOnce acts ordered rem = .ok (some n) →
      ∃ ds, getDeps acts n = .ok ds ∧ ds.all (fun d => ordered.contains d) = true := by
  intro rem
  induction rem with
  | nil => intro n h; simp [scanOnce] at h
  | cons m tl ih =>
    intro n h
    simp only [scanOnce] at h
    split at h
    · exact absurd h (by simp)
    · rename_i deps hdeps
      split at h
      · rename_i hall
        simp only [Except.ok.injEq, Option.some.injEq] at h
        subst h
        exact ⟨deps, hdeps, hall⟩
      · exact ih h

theorem scanOnce_none {acts : List (String × JValue)} {ordered : List String} :
    ∀ {rem : List String}, scanOnce acts ordered rem = .ok none →
      ∀ m ∈ rem, ∃ ds, getDeps acts m = .ok ds ∧
        ds.all (fun d => ordered.contains d) = false := by
  intro rem
  induction rem with
  | nil => intro _ m hm; simp at hm
  | cons m tl ih =>
    intro h x hx
    simp only [scanOnce] at h
    split at h
    · exact absurd h (by simp)
    · rename_i deps hdeps
      split at h
      · exact absurd h (by simp)
      · rename_i hall
        rcases List.mem_cons.mp hx with rfl | hx'
        · exact ⟨deps, hdeps, Bool.eq_false_iff.mpr hall⟩
        · exact ih h x hx'

theorem orderLoop_perm {acts : List (String × JValue)} :
    ∀ (fuel : Nat) (ordered remaining out : List String),
      remaining.length ≤ fuel → orderLoop acts fuel ordered remaining = .ok out →
      out.Perm (ordered ++ remaining) := by
  intro fuel
  induction fuel with
  | zero =>
    intro o r out hle h
    have hr : r = [] := List.eq_nil_of_length_eq_zero (Nat.le_zero.mp hle)
    subst hr
    simp only [orderLoop, Except.ok.injEq] at h
    rw [List.append_nil]
    exact h ▸ List.Perm.refl o
  | succ fuel ih =>
    intro o r out hle h
    simp only [orderLoop] at h
    split at h
    · rename_i hre
      simp only [Except.ok.injEq] at h
      have hr : r = [] := List.isEmpty_iff.mp hre
      subst hr
      rw [List.append_nil]
      exact h ▸ List.Perm.refl o
    · rename_i hre
      split at h
      · exact absurd h (by simp)
      · rename_i n hs
        have hn : n ∈ r := scanOnce_mem hs
        have hlen : (r.erase n).length ≤ fuel := by
          rw [List.length_erase_of_mem hn]
          have : 1 ≤ r.length := List.length_pos.mpr (List.ne_nil_of_mem hn)
          omega
        have hperm := ih (o ++ [n]) (r.erase n) out hlen h
        refine hperm.trans ?_
        rw [List.append_assoc]
        exact List.Perm.append_left o (List.perm_cons_erase hn).symm
      · rename_i hs
        simp only [Except.ok.injEq] at h
        exact h ▸ List.Perm.refl _

end WorkflowParser

namespace WorkflowParser

theorem processActions_spec {acts : List (String × JValue)} :
    ∀ (ns : List String) (accA : List ActionInfo) (accC : List JValue)
      (accD : List DataSourceInfo) (as : List ActionInfo) (cs : List JValue)
      (ds : List DataSourceInfo),
      processActions acts ns accA accC accD = .ok (as, cs, ds) →
      as.map ActionInfo.name = accA.map ActionInfo.name ++ ns ∧
      cs = dedupIns accC (connStream acts ns) := by
  intro ns
  induction ns with
  | nil =>
    intro accA accC accD as cs ds h
    simp only [processActions, Except.ok.injEq, Prod.mk.injEq] at h
    constructor
    · rw [← h.1]; simp
    · simp [connStream, dedupIns, h.2.1]
  | cons n rest ih =>
    intro accA accC accD as cs ds h
    simp only [processActions] at h
    cases h1 : pyDictGet ((acts.lookup n).getD (.obj .onil)) "type" .null with
    | error e => simp only [h1] at h; exact Except.noConfusion h
    | ok typ =>
    simp only [h1] at h
    cases h2 : describe_action ((acts.lookup n).getD (.obj .onil)) with
    | error e => simp only [h2] at h; exact Except.noConfusion h
    | ok desc =>
    simp only [h2] at h
    cases h3 : pyDictGet ((acts.lookup n).getD (.obj .onil)) "runAfter" (.obj .onil) with
    | error e => simp only [h3] at h; exact Except.noConfusion h
    | ok raV =>
    simp only [h3] at h
    cases h4 : pyDictKeys raV with
    | error e => simp only [h4] at h; exact Except.noConfusion h
    | ok ra =>
    simp only [h4] at h
    cases h5 : pyDictGet ((acts.lookup n).getD (.obj .onil)) "inputs" (.obj .onil) with
    | error e => simp only [h5] at h; exact Except.noConfusion h
    | ok ins =>
    simp only [h5] at h
    cases h6 : extract_connection ((acts.lookup n).getD (.obj .onil)) with
    | error e => simp only [h6] at h; exact Except.noConfusion h
    | ok conn =>
    simp only [h6] at h
    cases h7 : identify_data_source ((acts.lookup n).getD (.obj .onil)) with
    | error e => simp only [h7] at h; exact Except.noConfusion h
    | ok dso =>
    simp only [h7] at h
    obtain ⟨hnames, hconns⟩ := ih _ _ _ _ _ _ h
    constructor
    · rw [hnames]; simp
    · rw [hconns]
      cases conn with
      | none =>
        simp [connStream, List.filterMap_cons, connExtract, h6]
      | some c =>
        by_cases hc : pyTruthy c = true
        · by_cases hmem : c ∈ accC
          · simp [connStream, List.filterMap_cons, connExtract, h6, hc, hmem, dedupIns]
          · simp [connStream, List.filterMap_cons, connExtract, h6, hc, hmem, dedupIns]
        · simp [connStream, List.filterMap_cons, connExtract, h6, hc, dedupIns]

end WorkflowParser

namespace WorkflowParser

/-- Inversion of a successful `parse_workflow` run, as far as the
action-related outputs are concerned: either the definition was falsy (all
outputs empty, and its `actions` read yields an empty mapping), or the
action loop ran on the computed order. -/
theorem parse_cases {d : JValue} {pw : ParsedWorkflow} {av : JValue}
    {acts : List (String × JValue)}
    (hp : parse_workflow d = .ok pw)
    (hav : pyDictGet d "actions" (.obj .onil) = .ok av)
    (hacts : pyItems av = .ok acts) :
    (pw = emptyParsed ∧ acts = []) ∨
    (∃ ordered, order_actions av = .ok ordered ∧
      processActions acts ordered [] [] [] = .ok (pw.actions, pw.connections, pw.data_sources)) := by
  by_cases ht : pyTruthy d = false
  · left
    simp only [parse_workflow, ht, if_pos] at hp
    refine ⟨by simpa using hp.symm, ?_⟩
    cases d with
    | obj fs =>
      cases fs with
      | onil =>
        simp only [pyDictGet, joLookup, Option.getD_none] at hav
        injection hav with hav'
        subst hav'
        simp only [pyItems, JObj.toList, Except.ok.injEq] at hacts
        exact hacts.symm
      | ocons k v tl => simp [pyTruthy] at ht
    | null => simp [pyDictGet] at hav
    | bool b => simp [pyDictGet] at hav
    | num n => simp [pyDictGet] at hav
    | str s => simp [pyDictGet] at hav
    | arr xs => simp [pyDictGet] at hav
  · right
    simp only [parse_workflow, if_neg ht] at hp
    cases h1 : pyDictGet d "triggers" (.obj .onil) with
    | error e => simp only [h1] at hp; exact Except.noConfusion hp
    | ok trigsV =>
    simp only [h1] at hp
    cases h2 : pyItems trigsV with
    | error e => simp only [h2] at hp; exact Except.noConfusion hp
    | ok trigs =>
    simp only [h2] at hp
    cases h3 : processTriggers trigs with
    | error e => simp only [h3] at hp; exact Except.noConfusion hp
    | ok triggers =>
    simp only [h3] at hp
    simp only [hav] at hp
    cases h4 : order_actions av with
    | error e => simp only [h4] at hp; exact Except.noConfusion hp
    | ok ordered =>
    simp only [h4] at hp
    simp only [hacts] at hp
    cases h5 : processActions acts ordered [] [] [] with
    | error e => simp only [h5] at hp; exact Except.noConfusion hp
    | ok triple =>
    obtain ⟨aIs, conns, dss⟩ := triple
    simp only [h5, Except.ok.injEq] at hp
    refine ⟨ordered, rfl, ?_⟩
    rw [← hp]
    exact h5

/-- Inversion of a successful `parse_workflow_enum` run, as far as the
action-related outputs are concerned: either the definition was falsy (all
outputs empty, and its `actions` read yields an empty mapping), or the
action loop ran on the computed order. -/
theorem parse_cases_enum {d : JValue} {pw : ParsedWorkflow} {av : JValue}
    {acts : List (String × JValue)} {enum : List String}
    (hp : parse_workflow_enum d enum = .ok pw)
    (hav : pyDictGet d "actions" (.obj .onil) = .ok av)
    (hacts : pyItems av = .ok acts) :
    (pw = emptyParsed ∧ acts = []) ∨
    (∃ ordered, order_actions_enum av enum = .ok ordered ∧
      processActions acts ordered [] [] [] = .ok (pw.actions, pw.connections, pw.data_sources)) := by
  by_cases ht : pyTruthy d = false
  · left
    simp only [parse_workflow_enum, ht, if_pos] at hp
    refine ⟨by simpa using hp.symm, ?_⟩
    cases d with
    | obj fs =>
      cases fs with
      | onil =>
        simp only [pyDictGet, joLookup, Option.getD_none] at hav
        injection hav with hav'
        subst hav'
        simp only [pyItems, JObj.toList, Except.ok.injEq] at hacts
        exact hacts.symm
      | ocons k v tl => simp [pyTruthy] at ht
    | null => simp [pyDictGet] at hav
    | bool b => simp [pyDictGet] at hav
    | num n => simp [pyDictGet] at hav
    | str s => simp [pyDictGet] at hav
    | arr xs => simp [pyDictGet] at hav
  · right
    simp only [parse_workflow_enum, if_neg ht] at hp
    cases h1 : pyDictGet d "triggers" (.obj .onil) with
    | error e => simp only [h1] at hp; exact Except.noConfusion hp
    | ok trigsV =>
    simp only [h1] at hp
    cases h2 : pyItems trigsV with
    | error e => simp only [h2] at hp; exact Except.noConfusion hp
    | ok trigs =>
    simp only [h2] at hp
    cases h3 : processTriggers trigs with
    | error e => simp only [h3] at hp; exact Except.noConfusion hp
    | ok triggers =>
    simp only [h3] at hp
    simp only [hav] at hp
    cases h4 : order_actions_enum av enum with
    | error e => simp only [h4] at hp; exact Except.noConfusion hp
    | ok ordered =>
    simp only [h4] at hp
    simp only [hacts] at hp
    cases h5 : processActions acts ordered [] [] [] with
    | error e => simp only [h5] at hp; exact Except.noConfusion hp
    | ok triple =>
    obtain ⟨aIs, conns, dss⟩ := triple
    simp only [h5, Except.ok.injEq] at hp
    refine ⟨ordered, rfl, ?_⟩
    rw [← hp]
    exact h5

/-- `order_actions` is exactly `order_actions_enum` at the insertion-order
enumeration of the keys. -/
theorem order_actions_eq_enum {av : JValue} {acts : List (String × JValue)}
    (hacts : pyItems av = .ok acts) :
    order_actions av = order_actions_enum av (acts.map Prod.fst) := by
  simp [order_actions, order_actions_enum, hacts]

/-- `parse_workflow` is exactly `parse_workflow_enum` at the
insertion-order enumeration of the action keys, so every fact proved about
`parse_workflow` is a fact about one legal behaviour of the program. -/
theorem parse_workflow_eq_enum {d av : JValue} {acts : List (String × JValue)}
    (hav : pyDictGet d "actions" (.obj .onil) = .ok av)
    (hacts : pyItems av = .ok acts) :
    parse_workflow d = parse_workflow_enum d (acts.map Prod.fst) := by
  by_cases ht : pyTruthy d = false
  · simp only [parse_workflow, parse_workflow_enum, if_pos ht]
  · simp only [parse_workflow, parse_workflow_enum, if_neg ht]
    cases h1 : pyDictGet d "triggers" (.obj .onil) with
    | error e => rfl
    | ok trigsV =>
    cases h2 : pyItems trigsV with
    | error e => simp only [h2]
    | ok trigs =>
    simp only [h2]
    cases h3 : processTriggers trigs with
    | error e => simp only [h3]
    | ok triggers =>
    simp only [h3, hav]
    rw [order_actions_eq_enum hacts]

end WorkflowParser

namespace WorkflowParser

theorem order_actions_inv {av : JValue} {acts : List (String × JValue)}
    {ordered : List String} (hacts : pyItems av = .ok acts)
    (h : order_actions av = .ok ordered) :
    orderLoop acts (acts.length * 2) [] (acts.map Prod.fst) = .ok ordered := by
  simp only [order_actions, hacts] at h
  exact h

theorem order_actions_perm {av : JValue} {acts : List (String × JValue)}
    {ordered : List String} (hacts : pyItems av = .ok acts)
    (h : order_actions av = .ok ordered) :
    ordered.Perm (acts.map Prod.fst) := by
  have hlen : (acts.map Prod.fst).length ≤ acts.length * 2 := by
    simp only [List.length_map]
    omega
  have := orderLoop_perm (acts.length * 2) [] (acts.map Prod.fst) ordered hlen
    (order_actions_inv hacts h)
  simpa using this

end WorkflowParser

open WorkflowParser

/-- Test fixture: a three-action workflow definition in the shape of the
source's `__main__` sample (trigger `manual`, a JSON parse, a SQL
stored-procedure call carrying a connection reference, and a response). -/
def wSample : JValue := .obj (.ocons "triggers"
    (.obj (.ocons "manual" (.obj (.ocons "type" (.str "Request") (.ocons "kind" (.str "Http")
      (.ocons "inputs" (.obj (.ocons "method" (.str "POST") .onil)) .onil)))) .onil))
  (.ocons "actions" (.obj
    (.ocons "A" (.obj (.ocons "type" (.str "ParseJson") (.ocons "runAfter" (.obj .onil) .onil)))
    (.ocons "B" (.obj (.ocons "type" (.str "ApiConnection")
      (.ocons "runAfter" (.obj (.ocons "A" (.arr (.cons (.str "Succeeded") .nil)) .onil))
        (.ocons "inputs" (.obj (.ocons "host" (.obj (.ocons "apiId" (.str "/apis/sql")
            (.ocons "connection" (.obj (.ocons "referenceName" (.str "sql-conn") .onil)) .onil)))
          (.ocons "path" (.str "/sql/executeStoredProcedure/sp_GetData") .onil))) .onil))))
    (.ocons "C" (.obj (.ocons "type" (.str "Response")
      (.ocons "runAfter" (.obj (.ocons "B" (.arr (.cons (.str "Succeeded") .nil)) .onil))
        (.ocons "inputs" (.obj (.ocons "statusCode" (.num 200) .onil)) .onil))))
    .onil)))) .onil))

/-- The `actions` container of `wSample`. -/
def wAv : JValue :=
  match pyDictGet wSample "actions" (.obj .onil) with
  | .ok v => v
  | .error _ => .null

/-- The `actions` items of `wSample`. -/
def wActs : List (String × JValue) :=
  match pyItems wAv with
  | .ok l => l
  | .error _ => []

/-- The parse result of `wSample`. -/
def wPW : ParsedWorkflow :=
  match parse_workflow wSample with
  | .ok pw => pw
  | .error _ => emptyParsed

/-- C1: for every workflow definition, the `actions` sequence produced by
`parse_workflow` contains every name from the input `actions` mapping
exactly once — its length equals the number of input actions, its names are
exactly the input action names, and no name is duplicated, fabricated, or
dropped — including for cyclic or otherwise malformed dependency graphs
(hypotheses only require the parse to return, and the input keys to be
distinct as Python dict keys are). -/
theorem claim_C1 (d : JValue) (pw : ParsedWorkflow) (av : JValue)
    (acts : List (String × JValue))
    (hp : parse_workflow d = .ok pw)
    (hav : pyDictGet d "actions" (.obj .onil) = .ok av)
    (hacts : pyItems av = .ok acts)
    (hnd : (acts.map Prod.fst).Nodup) :
    pw.actions.length = acts.length ∧
    (∀ n, n ∈ pw.actions.map ActionInfo.name ↔ n ∈ acts.map Prod.fst) ∧
    (pw.actions.map ActionInfo.name).Nodup := by
  rcases parse_cases hp hav hacts with ⟨rfl, rfl⟩ | ⟨ordered, ho, hpa⟩
  · simp [emptyParsed]
  · have hperm : ordered.Perm (acts.map Prod.fst) := order_actions_perm hacts ho
    have hnames := (processActions_spec ordered [] [] [] _ _ _ hpa).1
    simp only [List.map_nil, List.nil_append] at hnames
    have hperm2 : (pw.actions.map ActionInfo.name).Perm (acts.map Prod.fst) :=
      hnames ▸ hperm
    refine ⟨?_, fun n => hperm2.mem_iff, hperm2.nodup_iff.mpr hnd⟩
    have := hperm2.length_eq
    simpa using this

/-- Witness for C1 at the sample workflow. -/
theorem claim_C1_witness :
    wPW.actions.length = wActs.length ∧
    ("B" ∈ wPW.actions.map ActionInfo.name ↔ "B" ∈ wActs.map Prod.fst) ∧
    (wPW.actions.map ActionInfo.name).Nodup := by
  have h := claim_C1 wSample wPW wAv wActs rfl rfl rfl (by decide)
  exact ⟨h.1, h.2.1 "B", h.2.2⟩

namespace WorkflowParser

theorem exists_min_rank (rank : String → Nat) :
    ∀ (l : List String), l ≠ [] → ∃ n ∈ l, ∀ m ∈ l, rank n ≤ rank m := by
  intro l
  induction l with
  | nil => intro h; exact absurd rfl h
  | cons a tl ih =>
    intro _
    by_cases htl : tl = []
    · subst htl
      refine ⟨a, List.mem_cons_self a [], ?_⟩
      intro m hm
      rcases List.mem_singleton.mp hm with rfl
      exact le_refl _
    · obtain ⟨n, hn, hmin⟩ := ih htl
      by_cases hc : rank a ≤ rank n
      · refine ⟨a, List.mem_cons_self a tl, ?_⟩
        intro m hm
        rcases List.mem_cons.mp hm with rfl | hm'
        · exact le_refl _
        · exact le_trans hc (hmin m hm')
      · refine ⟨n, List.mem_cons_of_mem a hn, ?_⟩
        intro m hm
        rcases List.mem_cons.mp hm with rfl | hm'
        · exact le_of_lt (lt_of_not_le hc)
        · exact hmin m hm'

theorem orderLoop_topo {acts : List (String × JValue)} (rank : String → Nat)
    (hacyc : ∀ a ∈ acts.map Prod.fst, ∀ p ∈ depsOrEmpty acts a, rank p < rank a)
    (hclosed : ∀ a ∈ acts.map Prod.fst, ∀ p ∈ depsOrEmpty acts a, p ∈ acts.map Prod.fst) :
    ∀ (fuel : Nat) (ordered remaining out : List String),
      remaining.length ≤ fuel →
      (ordered ++ remaining).Perm (acts.map Prod.fst) →
      (ordered ++ remaining).Nodup →
      (∀ a ∈ ordered, ∀ p ∈ depsOrEmpty acts a,
        p ∈ ordered ∧ List.indexOf p ordered < List.indexOf a ordered) →
      orderLoop acts fuel ordered remaining = .ok out →
      ∀ a ∈ out, ∀ p ∈ depsOrEmpty acts a,
        List.indexOf p out < List.indexOf a out := by
  intro fuel
  induction fuel with
  | zero =>
    intro o r out hle hperm hnd hinv h
    have hr : r = [] := List.eq_nil_of_length_eq_zero (Nat.le_zero.mp hle)
    subst hr
    simp only [orderLoop, Except.ok.injEq] at h
    subst h
    intro a ha p hp
    exact (hinv a ha p hp).2
  | succ fuel ih =>
    intro o r out hle hperm hnd hinv h
    simp only [orderLoop] at h
    split at h
    · rename_i hre
      simp only [Except.ok.injEq] at h
      subst h
      intro a ha p hp
      exact (hinv a ha p hp).2
    · rename_i hre
      have hne : r ≠ [] := fun hcon => hre (by simp [hcon])
      split at h
      · exact Except.noConfusion h
      · rename_i n hs
        have hn : n ∈ r := scanOnce_mem hs
        obtain ⟨ds, hd, hall⟩ := scanOnce_some hs
        have hdeps : depsOrEmpty acts n = ds := by simp [depsOrEmpty, hd]
        have hnotmem : n ∉ o := by
          intro hno
          exact (List.disjoint_of_nodup_append hnd) hno hn
        have hsub : ∀ p ∈ ds, p ∈ o := by
          intro p hp
          have := List.all_eq_true.mp hall p hp
          simpa using this
        have hpermStep : ((o ++ [n]) ++ r.erase n).Perm (o ++ r) := by
          rw [List.append_assoc]
          exact List.Perm.append_left o (List.perm_cons_erase hn).symm
        have hlen : (r.erase n).length ≤ fuel := by
          rw [List.length_erase_of_mem hn]
          have : 1 ≤ r.length := List.length_pos.mpr hne
          omega
        refine ih (o ++ [n]) (r.erase n) out hlen (hpermStep.trans hperm)
          (hpermStep.nodup_iff.mpr hnd) ?_ h
        intro a ha p hp
        rcases List.mem_append.mp ha with hao | han
        · obtain ⟨hpo, hidx⟩ := hinv a hao p hp
          refine ⟨List.mem_append_left _ hpo, ?_⟩
          rw [List.indexOf_append_of_mem hpo, List.indexOf_append_of_mem hao]
          exact hidx
        · rcases List.mem_singleton.mp han with rfl
          rw [hdeps] at hp
          have hpo := hsub p hp
          refine ⟨List.mem_append_left _ hpo, ?_⟩
          rw [List.indexOf_append_of_mem hpo, List.indexOf_append_of_not_mem hnotmem]
          have h1 : List.indexOf p o < o.length := List.indexOf_lt_length.mpr hpo
          simp only [List.indexOf_cons_self]
          omega
      · rename_i hs
        exfalso
        obtain ⟨n, hnr, hmin⟩ := exists_min_rank rank r hne
        obtain ⟨ds, hd, hallF⟩ := scanOnce_none hs n hnr
        have hex : ∃ d ∈ ds, d ∉ o := by
          have hno : ¬ ∀ d ∈ ds, d ∈ o := by
            intro hall2
            have : ds.all (fun d => o.contains d) = true :=
              List.all_eq_true.mpr (fun d hd2 => by simpa using hall2 d hd2)
            rw [this] at hallF
            exact Bool.noConfusion hallF
          push_neg at hno
          exact hno
        obtain ⟨d, hdds, hdnoto⟩ := hex
        have hdep : d ∈ depsOrEmpty acts n := by simp [depsOrEmpty, hd, hdds]
        have hnk : n ∈ acts.map Prod.fst :=
          hperm.subset (List.mem_append_right o hnr)
        have hdk : d ∈ acts.map Prod.fst := hclosed n hnk d hdep
        have hdor : d ∈ o ++ r := hperm.mem_iff.mpr hdk
        have hdr : d ∈ r := by
          rcases List.mem_append.mp hdor with hdo | hdr
          · exact absurd hdo hdnoto
          · exact hdr
        have h1 : rank d < rank n := hacyc n hnk d hdep
        have h2 : rank n ≤ rank d := hmin d hdr
        omega

end WorkflowParser
/-- C2: for every workflow definition whose actions form an acyclic
dependency graph (witnessed by a rank function decreasing along `runAfter`
edges) in which every listed predecessor names an existing action, every
predecessor is placed strictly before its dependent in the output actions
sequence. -/
theorem claim_C2 (d : JValue) (pw : ParsedWorkflow) (av : JValue)
    (acts : List (String × JValue))
    (hp : parse_workflow d = .ok pw)
    (hav : pyDictGet d "actions" (.obj .onil) = .ok av)
    (hacts : pyItems av = .ok acts)
    (hnd : (acts.map Prod.fst).Nodup)
    (rank : String → Nat)
    (hacyc : ∀ a ∈ acts.map Prod.fst, ∀ p ∈ depsOrEmpty acts a, rank p < rank a)
    (hclosed : ∀ a ∈ acts.map Prod.fst, ∀ p ∈ depsOrEmpty acts a, p ∈ acts.map Prod.fst) :
    ∀ a ∈ acts.map Prod.fst, ∀ p ∈ depsOrEmpty acts a,
      List.indexOf p (pw.actions.map ActionInfo.name) <
        List.indexOf a (pw.actions.map ActionInfo.name) := by
  rcases parse_cases hp hav hacts with ⟨rfl, rfl⟩ | ⟨ordered, ho, hpa⟩
  · intro a ha
    simp at ha
  · have hnames := (processActions_spec ordered [] [] [] _ _ _ hpa).1
    simp only [List.map_nil, List.nil_append] at hnames
    have hloop := order_actions_inv hacts ho
    have hperm := order_actions_perm hacts ho
    intro a ha p hp'
    have hmain := orderLoop_topo rank hacyc hclosed (acts.length * 2) []
      (acts.map Prod.fst) ordered
      (by simp only [List.length_map]; omega)
      (by rw [List.nil_append])
      (by rw [List.nil_append]; exact hnd)
      (fun a ha => absurd ha (List.not_mem_nil a))
      hloop
    have haout : a ∈ ordered := hperm.mem_iff.mpr ha
    rw [hnames]
    exact hmain a haout p hp'

/-- Witness for C2 at the sample workflow: the predecessor `A` of `B` comes
strictly first. -/
theorem claim_C2_witness :
    List.indexOf "A" (wPW.actions.map ActionInfo.name) <
      List.indexOf "B" (wPW.actions.map ActionInfo.name) := by
  have h := claim_C2 wSample wPW wAv wActs rfl rfl rfl (by decide)
    (fun n => if n = "A" then 0 else if n = "B" then 1 else 2)
    (by decide) (by decide)
  exact h "B" (by decide) "A" (by decide)

namespace WorkflowParser

theorem loopReach_perm {acts : List (String × JValue)} {enum : List String} :
    ∀ {o r : List String}, LoopReach acts enum o r → (o ++ r).Perm enum := by
  intro o r h
  induction h with
  | init => simp
  | step hprev hs ih =>
    rename_i ordered remaining n
    have hn : n ∈ remaining := scanOnce_mem hs
    have hstep : ((ordered ++ [n]) ++ remaining.erase n).Perm (ordered ++ remaining) := by
      rw [List.append_assoc]
      exact List.Perm.append_left ordered (List.perm_cons_erase hn).symm
    exact hstep.trans ih

theorem loopReach_sublist {acts : List (String × JValue)} {enum : List String} :
    ∀ {o r : List String}, LoopReach acts enum o r → r.Sublist enum := by
  intro o r h
  induction h with
  | init => exact List.Sublist.refl _
  | step hprev hs ih => exact (List.erase_sublist _ _).trans ih

theorem loopReach_loop {acts : List (String × JValue)} {enum : List String}
    (hlenE : enum.length = acts.length) :
    ∀ {o r : List String}, LoopReach acts enum o r →
      orderLoop acts (acts.length * 2) [] enum =
        orderLoop acts (acts.length * 2 - o.length) o r := by
  intro o r h
  induction h with
  | init => simp
  | step hprev hs ih =>
    rename_i ordered remaining n
    rw [ih]
    have hn : n ∈ remaining := scanOnce_mem hs
    have hne : remaining ≠ [] := List.ne_nil_of_mem hn
    have hlen := (loopReach_perm hprev).length_eq
    simp only [List.length_append] at hlen
    rw [hlenE] at hlen
    have hrlen : 1 ≤ remaining.length := List.length_pos.mpr hne
    obtain ⟨f, hf⟩ : ∃ f, acts.length * 2 - ordered.length = f + 1 :=
      ⟨acts.length * 2 - ordered.length - 1, by omega⟩
    rw [hf]
    simp only [orderLoop]
    rw [if_neg (by simp [hne]), hs]
    have : acts.length * 2 - (ordered ++ [n]).length = f := by
      simp only [List.length_append, List.length_singleton]
      omega
    rw [this]

/-- A permutation of a two-element duplicate-free list is one of its two
arrangements. -/
theorem perm_pair_eq {α : Type} {a b : α} (hne : a ≠ b) :
    ∀ {l : List α}, l.Perm [a, b] → l = [a, b] ∨ l = [b, a] := by
  intro l h
  cases l with
  | nil =>
    have hl := h.length_eq
    simp at hl
  | cons x tl =>
    cases tl with
    | nil =>
      have hl := h.length_eq
      simp at hl
    | cons y tl2 =>
      cases tl2 with
      | cons z tl3 =>
        have hl := h.length_eq
        simp only [List.length_cons, List.length_nil] at hl
        omega
      | nil =>
        have hx : x ∈ [a, b] := h.subset (by simp)
        have hy : y ∈ [a, b] := h.subset (by simp)
        have hnd : ([x, y] : List α).Nodup := h.nodup_iff.mpr (by simp [hne])
        have hxy : x ≠ y := by
          have := (List.nodup_cons.mp hnd).1
          simpa using this
        simp only [List.mem_cons, List.not_mem_nil, or_false] at hx hy
        rcases hx with rfl | rfl
        · rcases hy with rfl | rfl
          · exact absurd rfl hxy
          · exact Or.inl rfl
        · rcases hy with rfl | rfl
          · exact Or.inr rfl
          · exact absurd rfl hxy

end WorkflowParser

/-- C5 (corrected): whenever a full scan of `_order_actions` emits nothing
while actions remain (a cycle or unresolvable dependencies), parse returns
rather than raising, and the entire unresolved remainder — nothing is
dropped, the output is a permutation of all action keys — is appended to
the output in the iteration order of the `remaining` set (an in-order
sublist of the set's enumeration `enum`).  `enum` is some permutation of
the action keys that CPython's randomized string hashing, not the input
iteration order, decides; so the append order is the set order, not the
original input order. -/
theorem claim_C5 (d : JValue) (pw : ParsedWorkflow) (av : JValue)
    (acts : List (String × JValue)) (enum ordered remaining : List String)
    (hp : parse_workflow_enum d enum = .ok pw)
    (hav : pyDictGet d "actions" (.obj .onil) = .ok av)
    (hacts : pyItems av = .ok acts)
    (henum : enum.Perm (acts.map Prod.fst))
    (hreach : LoopReach acts enum ordered remaining)
    (hstuck : scanOnce acts ordered remaining = .ok none)
    (hne : remaining ≠ []) :
    pw.actions.map ActionInfo.name = ordered ++ remaining ∧
    (ordered ++ remaining).Perm (acts.map Prod.fst) ∧
    remaining.Sublist enum := by
  have hlenE : enum.length = acts.length := by
    have := henum.length_eq
    simpa using this
  have hord : order_actions_enum av enum = .ok (ordered ++ remaining) := by
    have hloop := loopReach_loop hlenE hreach
    have hlen := (loopReach_perm hreach).length_eq
    simp only [List.length_append] at hlen
    rw [hlenE] at hlen
    have hrlen : 1 ≤ remaining.length := List.length_pos.mpr hne
    obtain ⟨f, hf⟩ : ∃ f, acts.length * 2 - ordered.length = f + 1 :=
      ⟨acts.length * 2 - ordered.length - 1, by omega⟩
    simp only [order_actions_enum, hacts]
    rw [hloop, hf]
    simp only [orderLoop]
    rw [if_neg (by simp [hne]), hstuck]
  rcases parse_cases_enum hp hav hacts with ⟨rfl, rfl⟩ | ⟨ordered', ho, hpa⟩
  · have henil : enum = [] := by
      have h0 : enum.Perm [] := by simpa using henum
      exact h0.eq_nil
    have hsub := loopReach_sublist hreach
    rw [henil, List.sublist_nil] at hsub
    exact absurd hsub hne
  · have heq : ordered' = ordered ++ remaining := by
      rw [ho] at hord
      injection hord
    subst heq
    have hnames := (processActions_spec _ [] [] [] _ _ _ hpa).1
    simp only [List.map_nil, List.nil_append] at hnames
    exact ⟨hnames, (loopReach_perm hreach).trans henum, loopReach_sublist hreach⟩

/-- Test fixture: the 2-action definition in which each action lists the
other as a `runAfter` predecessor. -/
def cycActsV : JValue := .obj
  (.ocons "ActionA" (.obj (.ocons "runAfter"
      (.obj (.ocons "ActionB" (.arr (.cons (.str "Succeeded") .nil)) .onil)) .onil))
  (.ocons "ActionB" (.obj (.ocons "runAfter"
      (.obj (.ocons "ActionA" (.arr (.cons (.str "Succeeded") .nil)) .onil)) .onil))
  .onil))

/-- The 2-cycle workflow definition. -/
def cycDef : JValue := .obj (.ocons "actions" cycActsV .onil)

/-- The `actions` items of `cycDef`. -/
def cycActs : List (String × JValue) :=
  match pyItems cycActsV with
  | .ok l => l
  | .error _ => []

/-- The parse result of `cycDef` when the `remaining` set happens to
enumerate as `["ActionB", "ActionA"]` — the legal enumeration that is not
the insertion order. -/
def cycPW_BA : ParsedWorkflow :=
  match parse_workflow_enum cycDef ["ActionB", "ActionA"] with
  | .ok pw => pw
  | .error _ => emptyParsed

/-- Counterexample to C5 as stated: on the 2-cycle, under the legal set
enumeration `["ActionB", "ActionA"]` (a permutation of the action keys),
the first scan emits nothing and the whole remainder is appended — but in
the order `["ActionB", "ActionA"]`, which differs from the original input
iteration order `["ActionA", "ActionB"]` of the actions mapping.  The
append order is the set's hash-dependent enumeration, not the input order
the claim asserts. -/
theorem claim_C5_counterexample :
    parse_workflow_enum cycDef ["ActionB", "ActionA"] = .ok cycPW_BA ∧
    (["ActionB", "ActionA"] : List String).Perm (cycActs.map Prod.fst) ∧
    scanOnce cycActs [] ["ActionB", "ActionA"] = .ok none ∧
    cycPW_BA.actions.map ActionInfo.name = ["ActionB", "ActionA"] ∧
    cycPW_BA.actions.map ActionInfo.name ≠ cycActs.map Prod.fst := by
  refine ⟨rfl, by decide, by decide, rfl, by decide⟩

/-- C6 (corrected): on the 2-action cyclic definition, for every
enumeration `enum` of the `remaining` set (any permutation of the two
action names), the ordering loop terminates within its hard cap of 2×2
scan rounds — a single scan round already suffices — parse returns
normally, and both actions appear exactly once in the output; but the
resulting order is `enum` itself, which may be either arrangement of the
two names, so the output order is decided by the set's hash-dependent
enumeration and is not determined by the input iteration order. -/
theorem claim_C6 (enum : List String)
    (henum : enum.Perm (cycActs.map Prod.fst)) :
    order_actions_enum cycActsV enum = .ok enum ∧
    cycActs.length * 2 = 4 ∧
    orderLoop cycActs 1 [] enum = .ok enum ∧
    isOkE (parse_workflow_enum cycDef enum) = true ∧
    parsedNames (parse_workflow_enum cycDef enum) = enum ∧
    enum.count "ActionA" = 1 ∧
    enum.count "ActionB" = 1 ∧
    (enum = ["ActionA", "ActionB"] ∨ enum = ["ActionB", "ActionA"]) := by
  have henum2 : enum.Perm ["ActionA", "ActionB"] := henum
  rcases perm_pair_eq (by decide) henum2 with rfl | rfl
  · exact ⟨rfl, rfl, rfl, rfl, rfl, by decide, by decide, Or.inl rfl⟩
  · exact ⟨rfl, rfl, rfl, rfl, rfl, by decide, by decide, Or.inr rfl⟩

/-- Counterexample to C6 as stated: the two legal enumerations of the
`remaining` set for the same cyclic input — both permutations of the
action keys — produce different output orders, so the resulting order is
not deterministic given the input iteration order: it depends on the
per-process hash seed. -/
theorem claim_C6_counterexample :
    order_actions_enum cycActsV ["ActionA", "ActionB"] = .ok ["ActionA", "ActionB"] ∧
    order_actions_enum cycActsV ["ActionB", "ActionA"] = .ok ["ActionB", "ActionA"] ∧
    (["ActionA", "ActionB"] : List String).Perm (cycActs.map Prod.fst) ∧
    (["ActionB", "ActionA"] : List String).Perm (cycActs.map Prod.fst) ∧
    (["ActionA", "ActionB"] : List String) ≠ ["ActionB", "ActionA"] := by
  refine ⟨rfl, rfl, by decide, by decide, by decide⟩

/-- Witness for C6 at the non-insertion-order enumeration
`["ActionB", "ActionA"]`. -/
theorem claim_C6_witness :
    order_actions_enum cycActsV ["ActionB", "ActionA"] = .ok ["ActionB", "ActionA"] ∧
    cycActs.length * 2 = 4 ∧
    orderLoop cycActs 1 [] ["ActionB", "ActionA"] = .ok ["ActionB", "ActionA"] ∧
    isOkE (parse_workflow_enum cycDef ["ActionB", "ActionA"]) = true ∧
    parsedNames (parse_workflow_enum cycDef ["ActionB", "ActionA"]) = ["ActionB", "ActionA"] ∧
    (["ActionB", "ActionA"] : List String).count "ActionA" = 1 ∧
    (["ActionB", "ActionA"] : List String).count "ActionB" = 1 ∧
    ((["ActionB", "ActionA"] : List String) = ["ActionA", "ActionB"] ∨
      (["ActionB", "ActionA"] : List String) = ["ActionB", "ActionA"]) :=
  claim_C6 ["ActionB", "ActionA"] (by decide)

/-- Witness for C5 at the 2-cycle under the set enumeration
`["ActionB", "ActionA"]`: the first scan emits nothing and both actions
are appended in the set order. -/
theorem claim_C5_witness :
    cycPW_BA.actions.map ActionInfo.name = [] ++ ["ActionB", "ActionA"] ∧
    (([] : List String) ++ ["ActionB", "ActionA"]).Perm (cycActs.map Prod.fst) ∧
    List.Sublist ["ActionB", "ActionA"] ["ActionB", "ActionA"] :=
  claim_C5 cycDef cycPW_BA cycActsV cycActs ["ActionB", "ActionA"] []
    ["ActionB", "ActionA"] rfl rfl rfl (by decide) LoopReach.init (by decide)
    (by decide)

namespace WorkflowParser

theorem dedupIns_nodup : ∀ (s acc : List JValue), acc.Nodup → (dedupIns acc s).Nodup := by
  intro s
  induction s with
  | nil => intro acc h; exact h
  | cons c rest ih =>
    intro acc h
    simp only [dedupIns]
    by_cases hm : c ∈ acc
    · rw [if_pos hm]
      exact ih acc h
    · rw [if_neg hm]
      refine ih _ ?_
      rw [(List.perm_append_singleton c acc).nodup_iff]
      exact List.nodup_cons.mpr ⟨hm, h⟩

theorem dedupIns_mem : ∀ (s acc : List JValue) (x : JValue),
    x ∈ dedupIns acc s ↔ x ∈ acc ∨ x ∈ s := by
  intro s
  induction s with
  | nil => intro acc x; simp [dedupIns]
  | cons c rest ih =>
    intro acc x
    simp only [dedupIns]
    by_cases hm : c ∈ acc
    · rw [if_pos hm, ih]
      simp only [List.mem_cons]
      constructor
      · rintro (hx | hx)
        · exact Or.inl hx
        · exact Or.inr (Or.inr hx)
      · rintro (hx | rfl | hx)
        · exact Or.inl hx
        · exact Or.inl hm
        · exact Or.inr hx
    · rw [if_neg hm, ih]
      simp only [List.mem_append, List.mem_singleton, List.mem_cons]
      tauto

theorem dedupIns_pairwise (full : List JValue) :
    ∀ (s consumed acc : List JValue),
      full = consumed ++ s →
      (∀ x, x ∈ acc ↔ x ∈ consumed) →
      acc.Pairwise (fun a b => List.indexOf a full < List.indexOf b full) →
      (dedupIns acc s).Pairwise (fun a b => List.indexOf a full < List.indexOf b full) := by
  intro s
  induction s with
  | nil => intro consumed acc _ _ hpw; exact hpw
  | cons c rest ih =>
    intro consumed acc hfull hmem hpw
    have hfull' : full = (consumed ++ [c]) ++ rest := by
      rw [hfull, List.append_assoc]
      rfl
    simp only [dedupIns]
    by_cases hm : c ∈ acc
    · rw [if_pos hm]
      refine ih (consumed ++ [c]) acc hfull' ?_ hpw
      intro x
      rw [hmem x]
      simp only [List.mem_append, List.mem_singleton]
      constructor
      · exact fun hx => Or.inl hx
      · rintro (hx | rfl)
        · exact hx
        · exact (hmem _).mp hm
    · rw [if_neg hm]
      refine ih (consumed ++ [c]) (acc ++ [c]) hfull' ?_ ?_
      · intro x
        simp only [List.mem_append, List.mem_singleton, hmem x]
      · rw [List.pairwise_append]
        refine ⟨hpw, List.pairwise_singleton _ _, ?_⟩
        intro a ha c' hc'
        rcases List.mem_singleton.mp hc' with rfl
        have hac : a ∈ consumed := (hmem a).mp ha
        have hcn : c' ∉ consumed := fun hcc => hm ((hmem c').mpr hcc)
        rw [hfull, List.indexOf_append_of_mem hac, List.indexOf_append_of_not_mem hcn]
        have h1 : List.indexOf a consumed < consumed.length :=
          List.indexOf_lt_length.mpr hac
        simp only [List.indexOf_cons_self]
        omega

end WorkflowParser

/-- C7: for every workflow definition, the `connections` sequence produced
by parse has no duplicates, contains exactly the truthy connection
references encountered along the computed action order, and lists them in
insertion order of first occurrence (indices into the encounter stream are
strictly increasing). -/
theorem claim_C7 (d : JValue) (pw : ParsedWorkflow) (av : JValue)
    (acts : List (String × JValue))
    (hp : parse_workflow d = .ok pw)
    (hav : pyDictGet d "actions" (.obj .onil) = .ok av)
    (hacts : pyItems av = .ok acts) :
    pw.connections.Nodup ∧
    (∀ c, c ∈ pw.connections ↔ c ∈ connStream acts (pw.actions.map ActionInfo.name)) ∧
    pw.connections.Pairwise (fun a b =>
      List.indexOf a (connStream acts (pw.actions.map ActionInfo.name)) <
        List.indexOf b (connStream acts (pw.actions.map ActionInfo.name))) := by
  rcases parse_cases hp hav hacts with ⟨rfl, rfl⟩ | ⟨ordered, ho, hpa⟩
  · simp [emptyParsed, connStream]
  · obtain ⟨hnames, hconns⟩ := processActions_spec ordered [] [] [] _ _ _ hpa
    simp only [List.map_nil, List.nil_append] at hnames
    rw [hconns, hnames]
    refine ⟨dedupIns_nodup _ [] (List.nodup_nil), ?_, ?_⟩
    · intro c
      rw [dedupIns_mem]
      simp
    · exact dedupIns_pairwise _ _ [] [] rfl (by simp) List.Pairwise.nil

/-- Witness for C7 at the sample workflow (single connection `sql-conn`). -/
theorem claim_C7_witness :
    wPW.connections.Nodup ∧
    (JValue.str "sql-conn" ∈ wPW.connections ↔
      JValue.str "sql-conn" ∈ connStream wActs (wPW.actions.map ActionInfo.name)) ∧
    wPW.connections.Pairwise (fun a b =>
      List.indexOf a (connStream wActs (wPW.actions.map ActionInfo.name)) <
        List.indexOf b (connStream wActs (wPW.actions.map ActionInfo.name))) := by
  have h := claim_C7 wSample wPW wAv wActs rfl rfl rfl
  exact ⟨h.1, h.2.1 (JValue.str "sql-conn"), h.2.2⟩

namespace WorkflowParser

/-- The entry-wise transform `_sanitize_inputs` applies to a looked-up
value commutes with dict lookup. -/
theorem joLookup_sanitizeObj : ∀ (fs : JObj) (k : String),
    joLookup (sanitizeObj fs) k =
      (joLookup fs k).map (fun v =>
        if isSensitive k then .str "[REDACTED]"
        else match v with | .obj gs => .obj (sanitizeObj gs) | w => w)
  | .onil, k => by simp [sanitizeObj_onil, joLookup]
  | .ocons k' v tl, k => by
    by_cases hsens : isSensitive k' = true
    · rw [sanitizeObj_ocons_sensitive k' v tl hsens]
      simp only [joLookup]
      by_cases hk : k' = k
      · subst hk
        simp [hsens]
      · simp only [if_neg hk]
        exact joLookup_sanitizeObj tl k
    · have hsens' : isSensitive k' = false := Bool.eq_false_iff.mpr hsens
      cases v with
      | obj gs =>
        rw [sanitizeObj_ocons_obj k' gs tl hsens']
        simp only [joLookup]
        by_cases hk : k' = k
        · subst hk
          simp [hsens']
        · simp only [if_neg hk]
          exact joLookup_sanitizeObj tl k
      | null =>
        rw [sanitizeObj_ocons_other k' _ tl hsens' (fun _ h => JValue.noConfusion h)]
        simp only [joLookup]
        by_cases hk : k' = k
        · subst hk; simp [hsens']
        · simp only [if_neg hk]; exact joLookup_sanitizeObj tl k
      | bool b =>
        rw [sanitizeObj_ocons_other k' _ tl hsens' (fun _ h => JValue.noConfusion h)]
        simp only [joLookup]
        by_cases hk : k' = k
        · subst hk; simp [hsens']
        · simp only [if_neg hk]; exact joLookup_sanitizeObj tl k
      | num n =>
        rw [sanitizeObj_ocons_other k' _ tl hsens' (fun _ h => JValue.noConfusion h)]
        simp only [joLookup]
        by_cases hk : k' = k
        · subst hk; simp [hsens']
        · simp only [if_neg hk]; exact joLookup_sanitizeObj tl k
      | str s =>
        rw [sanitizeObj_ocons_other k' _ tl hsens' (fun _ h => JValue.noConfusion h)]
        simp only [joLookup]
        by_cases hk : k' = k
        · subst hk; simp [hsens']
        · simp only [if_neg hk]; exact joLookup_sanitizeObj tl k
      | arr xs =>
        rw [sanitizeObj_ocons_other k' _ tl hsens' (fun _ h => JValue.noConfusion h)]
        simp only [joLookup]
        by_cases hk : k' = k
        · subst hk; simp [hsens']
        · simp only [if_neg hk]; exact joLookup_sanitizeObj tl k

theorem getPath_cons_ne_obj (v : JValue) (h : ∀ fs, v ≠ .obj fs) (x : String)
    (xs : List String) : getPath v (x :: xs) = none := by
  cases v with
  | obj fs => exact absurd rfl (h fs)
  | null => simp [getPath]
  | bool b => simp [getPath]
  | num n => simp [getPath]
  | str s => simp [getPath]
  | arr ys => simp [getPath]

theorem getPath_append_ne_obj (v : JValue) (hv : ∀ fs, v ≠ .obj fs)
    (ks : List String) (k : String) : getPath v (ks ++ [k]) = none := by
  cases hk : ks ++ [k] with
  | nil => exact absurd hk (by simp)
  | cons x xs => exact getPath_cons_ne_obj v hv x xs

theorem sanitize_getPath_sensitive :
    ∀ (ks : List String) (v : JValue) (k : String) (w : JValue),
      (∀ k' ∈ ks, isSensitive k' = false) → isSensitive k = true →
      getPath v (ks ++ [k]) = some w →
      getPath (sanitize_inputs v) (ks ++ [k]) = some (.str "[REDACTED]") := by
  intro ks
  induction ks with
  | nil =>
    intro v k w _ hk hw
    cases v with
    | obj fs =>
      simp only [List.nil_append, getPath] at hw ⊢
      rw [joLookup_sanitizeObj]
      cases hl : joLookup fs k with
      | none => rw [hl] at hw; simp at hw
      | some w0 => simp [hk]
    | null => simp [getPath] at hw
    | bool b => simp [getPath] at hw
    | num n => simp [getPath] at hw
    | str s => simp [getPath] at hw
    | arr ys => simp [getPath] at hw
  | cons k0 ks' ih =>
    intro v k w hks hk hw
    have hk0 : isSensitive k0 = false := hks k0 (List.mem_cons_self k0 ks')
    have hks' : ∀ k' ∈ ks', isSensitive k' = false :=
      fun k' h => hks k' (List.mem_cons_of_mem k0 h)
    cases v with
    | obj fs =>
      simp only [List.cons_append, getPath] at hw ⊢
      cases hl : joLookup fs k0 with
      | none => rw [hl] at hw; simp at hw
      | some v0 =>
        rw [hl] at hw
        rw [joLookup_sanitizeObj, hl]
        cases v0 with
        | obj gs =>
          have IH := ih (.obj gs) k w hks' hk hw
          rw [sanitize_inputs_obj] at IH
          simpa [hk0] using IH
        | null =>
          have hw' : getPath JValue.null (ks' ++ [k]) = some w := hw
          rw [getPath_append_ne_obj _ (fun _ h => JValue.noConfusion h) _ _] at hw'
          exact Option.noConfusion hw'
        | bool b =>
          have hw' : getPath (JValue.bool b) (ks' ++ [k]) = some w := hw
          rw [getPath_append_ne_obj _ (fun _ h => JValue.noConfusion h) _ _] at hw'
          exact Option.noConfusion hw'
        | num n =>
          have hw' : getPath (JValue.num n) (ks' ++ [k]) = some w := hw
          rw [getPath_append_ne_obj _ (fun _ h => JValue.noConfusion h) _ _] at hw'
          exact Option.noConfusion hw'
        | str s =>
          have hw' : getPath (JValue.str s) (ks' ++ [k]) = some w := hw
          rw [getPath_append_ne_obj _ (fun _ h => JValue.noConfusion h) _ _] at hw'
          exact Option.noConfusion hw'
        | arr ys =>
          have hw' : getPath (JValue.arr ys) (ks' ++ [k]) = some w := hw
          rw [getPath_append_ne_obj _ (fun _ h => JValue.noConfusion h) _ _] at hw'
          exact Option.noConfusion hw'
    | null => simp [getPath] at hw
    | bool b => simp [getPath] at hw
    | num n => simp [getPath] at hw
    | str s => simp [getPath] at hw
    | arr ys => simp [getPath] at hw

end WorkflowParser

namespace WorkflowParser

theorem sanitize_getPath_preserved :
    ∀ (ks : List String) (v : JValue) (k : String) (w : JValue),
      (∀ k' ∈ ks, isSensitive k' = false) → isSensitive k = false →
      (∀ fs, w ≠ .obj fs) →
      getPath v (ks ++ [k]) = some w →
      getPath (sanitize_inputs v) (ks ++ [k]) = some w := by
  intro ks
  induction ks with
  | nil =>
    intro v k w _ hk hvw hw
    cases v with
    | obj fs =>
      simp only [List.nil_append, getPath] at hw ⊢
      rw [joLookup_sanitizeObj]
      cases hl : joLookup fs k with
      | none => rw [hl] at hw; simp at hw
      | some w0 =>
        rw [hl] at hw
        simp only [Option.some.injEq] at hw
        subst hw
        cases w0 with
        | obj gs => exact absurd rfl (hvw gs)
        | null => simp [hk]
        | bool b => simp [hk]
        | num n => simp [hk]
        | str s => simp [hk]
        | arr ys => simp [hk]
    | null => simp [getPath] at hw
    | bool b => simp [getPath] at hw
    | num n => simp [getPath] at hw
    | str s => simp [getPath] at hw
    | arr ys => simp [getPath] at hw
  | cons k0 ks' ih =>
    intro v k w hks hk hvw hw
    have hk0 : isSensitive k0 = false := hks k0 (List.mem_cons_self k0 ks')
    have hks' : ∀ k' ∈ ks', isSensitive k' = false :=
      fun k' h => hks k' (List.mem_cons_of_mem k0 h)
    cases v with
    | obj fs =>
      simp only [List.cons_append, getPath] at hw ⊢
      cases hl : joLookup fs k0 with
      | none => rw [hl] at hw; simp at hw
      | some v0 =>
        rw [hl] at hw
        rw [joLookup_sanitizeObj, hl]
        cases v0 with
        | obj gs =>
          have IH := ih (.obj gs) k w hks' hk hvw hw
          rw [sanitize_inputs_obj] at IH
          simpa [hk0] using IH
        | null =>
          have hw' : getPath JValue.null (ks' ++ [k]) = some w := hw
          rw [getPath_append_ne_obj _ (fun _ h => JValue.noConfusion h) _ _] at hw'
          exact Option.noConfusion hw'
        | bool b =>
          have hw' : getPath (JValue.bool b) (ks' ++ [k]) = some w := hw
          rw [getPath_append_ne_obj _ (fun _ h => JValue.noConfusion h) _ _] at hw'
          exact Option.noConfusion hw'
        | num n =>
          have hw' : getPath (JValue.num n) (ks' ++ [k]) = some w := hw
          rw [getPath_append_ne_obj _ (fun _ h => JValue.noConfusion h) _ _] at hw'
          exact Option.noConfusion hw'
        | str s =>
          have hw' : getPath (JValue.str s) (ks' ++ [k]) = some w := hw
          rw [getPath_append_ne_obj _ (fun _ h => JValue.noConfusion h) _ _] at hw'
          exact Option.noConfusion hw'
        | arr ys =>
          have hw' : getPath (JValue.arr ys) (ks' ++ [k]) = some w := hw
          rw [getPath_append_ne_obj _ (fun _ h => JValue.noConfusion h) _ _] at hw'
          exact Option.noConfusion hw'
    | null => simp [getPath] at hw
    | bool b => simp [getPath] at hw
    | num n => simp [getPath] at hw
    | str s => simp [getPath] at hw
    | arr ys => simp [getPath] at hw

end WorkflowParser

/-- C4: `_sanitize_inputs` replaces the value of every entry whose key's
lowercase form contains one of the sensitive substrings by the fixed
redaction marker, at any nesting depth reachable through mappings; every
other (non-mapping) value reachable through non-sensitive keys is left
unchanged; and a non-mapping input yields an empty sanitized result. -/
theorem claim_C4 :
    (∀ v : JValue, (∀ fs, v ≠ .obj fs) → sanitize_inputs v = .obj .onil) ∧
    (∀ (v : JValue) (ks : List String) (k : String) (w : JValue),
      (∀ k' ∈ ks, isSensitive k' = false) → isSensitive k = true →
      getPath v (ks ++ [k]) = some w →
      getPath (sanitize_inputs v) (ks ++ [k]) = some (.str "[REDACTED]")) ∧
    (∀ (v : JValue) (ks : List String) (k : String) (w : JValue),
      (∀ k' ∈ ks, isSensitive k' = false) → isSensitive k = false →
      (∀ fs, w ≠ .obj fs) →
      getPath v (ks ++ [k]) = some w →
      getPath (sanitize_inputs v) (ks ++ [k]) = some w) :=
  ⟨sanitize_inputs_of_ne_obj,
   fun v ks k w h1 h2 h3 => sanitize_getPath_sensitive ks v k w h1 h2 h3,
   fun v ks k w h1 h2 h3 h4 => sanitize_getPath_preserved ks v k w h1 h2 h3 h4⟩

/-- Test fixture for the sanitizer: a nested mapping with one sensitive and
one innocuous entry. -/
def c4v : JValue := .obj (.ocons "outer"
  (.obj (.ocons "apiToken" (.str "abc") (.ocons "uri" (.str "u") .onil))) .onil)

/-- Witness for C4: a non-mapping input, a nested sensitive key, and a
nested innocuous key. -/
theorem claim_C4_witness :
    sanitize_inputs (.num 3) = .obj .onil ∧
    getPath (sanitize_inputs c4v) (["outer"] ++ ["apiToken"]) = some (.str "[REDACTED]") ∧
    getPath (sanitize_inputs c4v) (["outer"] ++ ["uri"]) = some (.str "u") := by
  refine ⟨claim_C4.1 (.num 3) (fun _ hh => JValue.noConfusion hh), ?_, ?_⟩
  · exact claim_C4.2.1 c4v ["outer"] "apiToken" (.str "abc")
      (by decide) (by decide) (by decide)
  · exact claim_C4.2.2 c4v ["outer"] "uri" (.str "u")
      (by decide) (by decide) (fun _ hh => JValue.noConfusion hh) (by decide)

/-- Test fixture: a trigger whose `recurrence.frequency` is a number, on
which `_describe_trigger` calls `.lower()` on an `int`. -/
def badTrigDef : JValue := .obj (.ocons "triggers"
  (.obj (.ocons "t" (.obj (.ocons "type" (.str "Recurrence")
    (.ocons "recurrence" (.obj (.ocons "frequency" (.num 5) .onil)) .onil))) .onil)) .onil)

/-- C3 (refuted — code bug): the parser is not total on malformed shapes.
A non-string `frequency` reaches `freq.lower()` and raises
`AttributeError`; a non-mapping action entry raises in `_order_actions`;
a non-string `apiId` raises in `_describe_api_connection`.  Each conjunct
evaluates the embedded code at such an input to the embedded exception. -/
theorem claim_C3 :
    describe_trigger (.obj (.ocons "type" (.str "Recurrence")
        (.ocons "recurrence" (.obj (.ocons "frequency" (.num 5) .onil)) .onil)))
      = .error "AttributeError: lower" ∧
    parse_workflow badTrigDef = .error "AttributeError: lower" ∧
    order_actions (.obj (.ocons "A" (.str "not a mapping") .onil))
      = .error "AttributeError: get" ∧
    describe_api_connection (.obj (.ocons "host" (.obj (.ocons "apiId" (.num 7) .onil)) .onil))
      = .error "AttributeError: lower" :=
  ⟨rfl, rfl, rfl, rfl⟩

/-- C9: `generate_markdown` is a pure deterministic function of its inputs:
equal parsed records and titles produce byte-identical documents (no other
state enters the embedding). -/
theorem claim_C9 (parsedA parsedB : ParsedWorkflow) (titleA titleB : String)
    (hp : parsedA = parsedB) (ht : titleA = titleB) :
    generate_markdown parsedA titleA = generate_markdown parsedB titleB := by
  rw [hp, ht]

/-- Witness for C9 on the empty record. -/
theorem claim_C9_witness :
    generate_markdown emptyParsed "Workflow" = generate_markdown emptyParsed "Workflow" :=
  claim_C9 emptyParsed emptyParsed "Workflow" "Workflow" rfl rfl

/-- C10: parse of the empty definition returns the record with all six
containers empty, and rendering it yields exactly the heading, the trigger
section, and the action-table header with no data rows — in particular no
connections section and no data-sources section. -/
theorem claim_C10 :
    parse_workflow (.obj .onil) = .ok emptyParsed ∧
    emptyParsed.triggers = [] ∧ emptyParsed.actions = [] ∧
    emptyParsed.connections = [] ∧ emptyParsed.data_sources = [] ∧
    emptyParsed.parameters = [] ∧ emptyParsed.vars = [] ∧
    generate_markdown emptyParsed "Workflow" =
      "## Workflow\n\n### Trigger Configuration\n\n### Workflow Actions (Execution Order)\n\n| Step | Action | Type | Description | Depends On |\n|------|--------|------|-------------|------------|\n" ∧
    containsSub (generate_markdown emptyParsed "Workflow") "## Workflow" = true ∧
    containsSub (generate_markdown emptyParsed "Workflow") "### Trigger Configuration" = true ∧
    containsSub (generate_markdown emptyParsed "Workflow")
      "| Step | Action | Type | Description | Depends On |" = true ∧
    containsSub (generate_markdown emptyParsed "Workflow") "### API Connections" = false ∧
    containsSub (generate_markdown emptyParsed "Workflow") "### Data Sources" = false := by
  refine ⟨rfl, rfl, rfl, rfl, rfl, rfl, rfl, rfl, ?_, ?_, ?_, ?_, ?_⟩ <;> decide

theorem isPrefixL_self_append : ∀ (l r : List Char), isPrefixL l (l ++ r) = true := by
  intro l
  induction l with
  | nil => intro r; rfl
  | cons a tl ih =>
    intro r
    simp only [List.cons_append, isPrefixL, beq_self_eq_true, Bool.true_and]
    exact ih r

theorem isSubL_of_append : ∀ (pre n r : List Char), isSubL n (pre ++ n ++ r) = true := by
  intro pre
  induction pre with
  | nil =>
    intro n r
    cases n with
    | nil =>
      cases r with
      | nil => rfl
      | cons c tl => simp [isSubL, isPrefixL]
    | cons c tl =>
      show (isPrefixL (c :: tl) ((c :: tl) ++ r) || isSubL (c :: tl) (tl ++ r)) = true
      rw [isPrefixL_self_append]
      rfl
  | cons c pre' ih =>
    intro n r
    show (isPrefixL n (c :: (pre' ++ n ++ r)) || isSubL n (pre' ++ n ++ r)) = true
    rw [ih n r]
    simp

theorem containsSub_decomp (p c r : String) : containsSub (p ++ c ++ r) c = true := by
  unfold containsSub
  rw [String.data_append, String.data_append]
  exact isSubL_of_append p.data c.data r.data

theorem takeWhile_append_all {p : Char → Bool} :
    ∀ (l₁ l₂ : List Char), (∀ x ∈ l₁, p x = true) →
      List.takeWhile p (l₁ ++ l₂) = l₁ ++ List.takeWhile p l₂ := by
  intro l₁
  induction l₁ with
  | nil => intro l₂ _; rfl
  | cons a tl ih =>
    intro l₂ hall
    have ha : p a = true := hall a (List.mem_cons_self a tl)
    simp only [List.cons_append, List.takeWhile_cons, ha, if_true]
    rw [ih l₂ (fun x hx => hall x (List.mem_cons_of_mem a hx))]

namespace ConfigurationAggregator

theorem matchAt_exact (c rest : String) (hc : c.data ≠ [])
    (hdot : ∀ ch ∈ c.data, (ch != '.') = true) :
    matchAt (("https://" ++ c ++ ".azurewebsites.net" ++ rest).data) = some c := by
  have hdata : ("https://" ++ c ++ ".azurewebsites.net" ++ rest).data =
      ("https://" : String).data ++
        (c.data ++ (('.' :: ("azurewebsites.net" : String).data) ++ rest.data)) := by
    simp [String.data_append, List.append_assoc]
  rw [hdata, matchAt, if_pos (isPrefixL_self_append _ _)]
  have hdrop : List.drop 8 (("https://" : String).data ++
      (c.data ++ (('.' :: ("azurewebsites.net" : String).data) ++ rest.data))) =
      c.data ++ (('.' :: ("azurewebsites.net" : String).data) ++ rest.data) := by
    rw [show (8 : Nat) = ("https://" : String).data.length from rfl]
    exact List.drop_left _ _
  rw [hdrop]
  have htake : List.takeWhile (fun ch => ch != '.')
      (c.data ++ (('.' :: ("azurewebsites.net" : String).data) ++ rest.data)) = c.data := by
    rw [takeWhile_append_all _ _ hdot]
    simp [List.takeWhile_cons]
  rw [htake]
  rw [if_neg (by simp [List.isEmpty_iff, hc])]
  have hdrop2 : List.drop c.data.length
      (c.data ++ (('.' :: ("azurewebsites.net" : String).data) ++ rest.data)) =
      ('.' :: ("azurewebsites.net" : String).data) ++ rest.data :=
    List.drop_left _ _
  rw [hdrop2]
  rw [if_pos ?hpre]
  case hpre =>
    rw [show ('.' :: ("azurewebsites.net" : String).data) ++ rest.data =
      (".azurewebsites.net" : String).data ++ rest.data from rfl]
    exact isPrefixL_self_append _ _

theorem searchAzure_head {cs : List Char} {cap : String}
    (h : matchAt cs = some cap) (hne : cs ≠ []) : searchAzure cs = some cap := by
  cases cs with
  | nil => exact absurd rfl hne
  | cons c tl => simp [searchAzure, h]

end ConfigurationAggregator

/-- C8: backend-type inference on a service URL.  A URL of the canonical
shape `https://<sub>.azurewebsites.net...` (dot-free non-empty subdomain)
is classified "Logic App Standard" with the subdomain captured as the name;
and in general the four containment branches are classified in the source's
order: `azurewebsites.net` → Logic App Standard, else `logic.azure.com` →
Logic App Consumption, else `azure-api.net` → APIM Backend, else
External. -/
theorem claim_C8 :
    (∀ (c rest : String), c ≠ "" → (∀ ch ∈ c.data, ch ≠ '.') →
      ConfigurationAggregator.identify_backend ("https://" ++ c ++ ".azurewebsites.net" ++ rest) =
        ⟨"Logic App Standard", some c⟩) ∧
    (∀ url, containsSub url "azurewebsites.net" = true →
      (ConfigurationAggregator.identify_backend url).type = "Logic App Standard") ∧
    (∀ url, containsSub url "azurewebsites.net" = false →
      containsSub url "logic.azure.com" = true →
      ConfigurationAggregator.identify_backend url = ⟨"Logic App Consumption", none⟩) ∧
    (∀ url, containsSub url "azurewebsites.net" = false →
      containsSub url "logic.azure.com" = false →
      containsSub url "azure-api.net" = true →
      ConfigurationAggregator.identify_backend url = ⟨"APIM Backend", none⟩) ∧
    (∀ url, containsSub url "azurewebsites.net" = false →
      containsSub url "logic.azure.com" = false →
      containsSub url "azure-api.net" = false →
      ConfigurationAggregator.identify_backend url = ⟨"External", none⟩) := by
  refine ⟨?_, ?_, ?_, ?_, ?_⟩
  · intro c rest hc hdot
    have hcd : c.data ≠ [] := by
      intro hd
      exact hc (String.ext (by simp [hd]))
    have hdot' : ∀ ch ∈ c.data, (ch != '.') = true := by
      intro ch hch
      simpa [bne_iff_ne] using hdot ch hch
    have hcontains : containsSub ("https://" ++ c ++ ".azurewebsites.net" ++ rest)
        "azurewebsites.net" = true := by
      have hshape : ("https://" ++ c ++ ".azurewebsites.net" ++ rest : String) =
          ("https://" ++ c ++ ".") ++ "azurewebsites.net" ++ rest := by
        have : (".azurewebsites.net" : String) = "." ++ "azurewebsites.net" := rfl
        rw [this]
        simp [String.append_assoc]
      rw [hshape]
      exact containsSub_decomp _ _ _
    have hmatch := ConfigurationAggregator.matchAt_exact c rest hcd hdot'
    have hne : ("https://" ++ c ++ ".azurewebsites.net" ++ rest).data ≠ [] := by
      rw [String.data_append]
      simp [String.data_append]
    have hsearch := ConfigurationAggregator.searchAzure_head hmatch hne
    rw [ConfigurationAggregator.identify_backend, if_pos hcontains, hsearch]
  · intro url h1
    rw [ConfigurationAggregator.identify_backend, if_pos h1]
  · intro url h1 h2
    rw [ConfigurationAggregator.identify_backend, if_neg (by simp [h1]), if_pos h2]
  · intro url h1 h2 h3
    rw [ConfigurationAggregator.identify_backend, if_neg (by simp [h1]),
      if_neg (by simp [h2]), if_pos h3]
  · intro url h1 h2 h3
    rw [ConfigurationAggregator.identify_backend, if_neg (by simp [h1]),
      if_neg (by simp [h2]), if_neg (by simp [h3])]

/-- Witness for C8: one URL per classification branch. -/
theorem claim_C8_witness :
    ConfigurationAggregator.identify_backend ("https://" ++ "myapp" ++ ".azurewebsites.net" ++ "/api") =
      ⟨"Logic App Standard", some "myapp"⟩ ∧
    ConfigurationAggregator.identify_backend "https://prod-00.westeurope.logic.azure.com/wf" =
      ⟨"Logic App Consumption", none⟩ ∧
    ConfigurationAggregator.identify_backend "https://corp.azure-api.net/v1" =
      ⟨"APIM Backend", none⟩ ∧
    ConfigurationAggregator.identify_backend "https://example.com/x" = ⟨"External", none⟩ := by
  refine ⟨claim_C8.1 "myapp" "/api" (by decide) (by decide),
    claim_C8.2.2.1 _ (by decide) (by decide),
    claim_C8.2.2.2.1 _ (by decide) (by decide) (by decide),
    claim_C8.2.2.2.2 _ (by decide) (by decide) (by decide)⟩
